import Mathlib

/-!
Verification of `fglib/graphs.py`: the `FactorGraph` container and the
`convert_to_fg` conversion algorithm, shallowly embedded in Lean 4.

Modelling conventions
* Python `dict`s are association lists with `dict`-update semantics:
  updating an existing key replaces the value in place (keeping the key's
  insertion position); updating a fresh key appends.
* networkx (1.x) node storage is an association list from node to its
  attribute record (`NodeData`): the `'type'` attribute, the `'origin'`
  attribute, and any further keyword attributes (`extra`, with opaque
  values rendered as strings).  A missing attribute is `none`; reading a
  missing attribute raises `KeyError`, modelled with `Except`.
* `node.graph = self` (the owning-graph back-reference that `set_node`
  stamps on the node object) is modelled by the graph's `owned` list:
  a node is in `owned` exactly when its back-reference was set to this
  graph.
* The node factories `vnode` / `fnode` of `convert_to_fg` return fresh,
  distinct Python objects carrying their type; they are modelled by the
  free constructors `FGNode.vnode` / `FGNode.fnode`.  An input-graph node
  that the conversion passes through unchanged is `FGNode.orig a`.
* `convert_to_fg` returns, next to the built factor graph, the caller's
  input-graph object as the call leaves it, so that the frame property
  (non-mutation of the input) is statable.  Every networkx primitive the
  source consumes is copy-producing per its documentation
  (`nx.relabel_nodes(graph, mapping)  # Returns a copy of 'graph'.`).
* The `Edge` payload object stored on each edge and the optional `init`
  message of `set_edge` are opaque to every property below and are not
  modelled; an edge is its (unordered) endpoint pair.
-/

/-- `nodes.NodeType` of fglib: the `'type'` discriminator. -/
inductive NodeType where
  | variable_node
  | factor_node
deriving DecidableEq, Repr

/-- Python exceptions that the modelled code can raise. -/
inductive PyErr where
  | keyError (key : String)
  | attrError (key : String)
  | indexError
deriving DecidableEq, Repr

instance [DecidableEq ε] [DecidableEq γ] : DecidableEq (Except ε γ) := fun x y =>
  match x, y with
  | .error a, .error b =>
    if h : a = b then isTrue (h ▸ rfl) else isFalse (fun hc => h (Except.error.inj hc))
  | .error _, .ok _ => isFalse (fun hc => Except.noConfusion hc)
  | .ok _, .error _ => isFalse (fun hc => Except.noConfusion hc)
  | .ok a, .ok b =>
    if h : a = b then isTrue (h ▸ rfl) else isFalse (fun hc => h (Except.ok.inj hc))

/-- Nodes of a converted factor graph: fresh variable-node instances
`vnode i`, fresh factor-node instances `fnode i` (the source always passes
`None` as the second factory argument, so no payload is recorded), and
original input-graph nodes passed through unchanged. -/
inductive FGNode (α : Type) where
  | vnode (i : Nat)
  | fnode (i : Nat)
  | orig (a : α)
deriving DecidableEq, Repr

/-- The networkx attribute dictionary of a stored node: the `'type'` key,
the `'origin'` key, and all remaining keyword attributes. -/
structure NodeData (ω : Type) where
  type : Option NodeType := none
  origin : Option ω := none
  extra : List (String × String) := []
deriving DecidableEq, Repr

/-- The state of a `FactorGraph` object: node storage (insertion order,
with attribute dictionaries), undirected edge list, and the list of node
objects whose `.graph` back-reference points at this graph. -/
structure FactorGraph (β ω : Type) where
  nodes : List (β × NodeData ω)
  edges : List (β × β)
  owned : List β
deriving DecidableEq, Repr

/-- `FactorGraph()`: created empty. -/
def FactorGraph.empty : FactorGraph β ω := { nodes := [], edges := [], owned := [] }

/-- A key is present in an association list (Python `k in d`). -/
def keyMem [DecidableEq α] (m : List (α × γ)) (k : α) : Prop :=
  ∃ p ∈ m, p.1 = k

instance [DecidableEq α] (m : List (α × γ)) (k : α) : Decidable (keyMem m k) := by
  unfold keyMem; infer_instance

/-- Python `dict` update of one key: replace in place if present, append
if fresh. -/
def dictUpdate [DecidableEq α] (m : List (α × γ)) (k : α) (v : γ) : List (α × γ) :=
  if keyMem m k then m.map (fun p => if p.1 = k then (k, v) else p)
  else m ++ [(k, v)]

/-- Python `dict.update` with a sequence of key/value pairs, in order. -/
def dictUpdates [DecidableEq α] (m : List (α × γ)) (ps : List (α × γ)) : List (α × γ) :=
  ps.foldl (fun m p => dictUpdate m p.1 p.2) m

/-- `dict(pairs)`: build a dict from a pair sequence (later duplicate keys
overwrite, keeping the first insertion position). -/
def pyDictOf [DecidableEq α] (ps : List (α × γ)) : List (α × γ) :=
  dictUpdates [] ps

/-- `m.get(a, d)`: dictionary lookup with a default. -/
def dictGetD [DecidableEq α] : List (α × γ) → α → γ → γ
  | [], _, d => d
  | p :: rest, a, d => if p.1 = a then p.2 else dictGetD rest a d

/-- `{v: k for k, v in m.items()}`: dictionary inversion. -/
def invertDict [DecidableEq γ] (m : List (α × γ)) : List (γ × α) :=
  m.foldl (fun acc p => dictUpdate acc p.2 p.1) []

/-- Lookup of a node's attribute dictionary in the node storage. -/
def lookupNode [DecidableEq β] : List (β × NodeData ω) → β → Option (NodeData ω)
  | [], _ => none
  | p :: rest, n => if p.1 = n then some p.2 else lookupNode rest n

/-- `nx.Graph.add_node` as called by `set_node`: a fresh node is appended
with attribute dict `attrs ∪ set_node's type key`; an existing node's dict is
merged (`self.node[n].update(attr_dict)`): `'type'` overwritten, `'origin'`
kept, keyword attributes merged. -/
def insertTyped [DecidableEq β] (l : List (β × NodeData ω)) (n : β) (t : NodeType)
    (ats : List (String × String)) : List (β × NodeData ω) :=
  if keyMem l n then
    l.map (fun p => if p.1 = n then
      (n, { p.2 with type := some t, extra := dictUpdates p.2.extra ats }) else p)
  else l ++ [(n, { type := some t, origin := none, extra := pyDictOf ats })]

/-- `nx.Graph.add_edge`'s node auto-creation: an absent endpoint is added
with an empty attribute dict (in particular, no `'type'` key). -/
def ensureNode [DecidableEq β] (l : List (β × NodeData ω)) (n : β) : List (β × NodeData ω) :=
  if keyMem l n then l else l ++ [(n, { type := none, origin := none, extra := [] })]

/-- Equality of undirected edges. -/
def sameEdge [DecidableEq β] (e e' : β × β) : Prop :=
  (e.1 = e'.1 ∧ e.2 = e'.2) ∨ (e.1 = e'.2 ∧ e.2 = e'.1)

instance [DecidableEq β] (e e' : β × β) : Decidable (sameEdge e e') := by
  unfold sameEdge; infer_instance

/-- `FactorGraph.set_node(node, **attr)`: stamps `node.graph = self`
(recorded in `owned`), then `add_node(self, node, attr, type=node.type)`.
Reading a missing `node.type` raises `AttributeError`.  `ty` gives each
node object's own `.type` attribute. -/
def FactorGraph.set_node [DecidableEq β] (ty : β → Option NodeType)
    (g : FactorGraph β ω) (n : β) (ats : List (String × String)) :
    Except PyErr (FactorGraph β ω) :=
  match ty n with
  | none => .error (.attrError "type")
  | some t => .ok { nodes := insertTyped g.nodes n t ats,
                    edges := g.edges,
                    owned := g.owned ++ [n] }

/-- `FactorGraph.set_nodes(nodes)`: `set_node` on each node in order. -/
def FactorGraph.set_nodes [DecidableEq β] (ty : β → Option NodeType) :
    FactorGraph β ω → List β → Except PyErr (FactorGraph β ω)
  | g, [] => .ok g
  | g, n :: rest =>
    match g.set_node ty n [] with
    | .error e => .error e
    | .ok g' => g'.set_nodes ty rest

/-- `FactorGraph.set_edge(snode, tnode, init=None)`: `add_edge` with the
Edge payload.  Absent endpoints are auto-created untyped; re-adding an
existing (undirected) edge only refreshes its payload. -/
def FactorGraph.set_edge [DecidableEq β] (g : FactorGraph β ω) (s t : β) : FactorGraph β ω :=
  { nodes := ensureNode (ensureNode g.nodes s) t,
    edges := if ∃ e ∈ g.edges, sameEdge e (s, t) then g.edges else g.edges ++ [(s, t)],
    owned := g.owned }

/-- `FactorGraph.set_edges(edges)`: `set_edge` on each pair in order. -/
def FactorGraph.set_edges [DecidableEq β] : FactorGraph β ω → List (β × β) → FactorGraph β ω
  | g, [] => g
  | g, e :: rest => (g.set_edge e.1 e.2).set_edges rest

/-- The list comprehension `[n for (n, d) in self.nodes(data=True)
if d['type'] == t]`: raises `KeyError` at a node without a `'type'` key. -/
def typedNodes [DecidableEq β] (t : NodeType) : List (β × NodeData ω) → Except PyErr (List β)
  | [] => .ok []
  | p :: rest =>
    match p.2.type with
    | none => .error (.keyError "type")
    | some tn => (typedNodes t rest).map (fun r => if tn = t then p.1 :: r else r)

/-- `FactorGraph.get_vnodes()`. -/
def FactorGraph.get_vnodes [DecidableEq β] (g : FactorGraph β ω) : Except PyErr (List β) :=
  typedNodes NodeType.variable_node g.nodes

/-- `FactorGraph.get_fnodes()`. -/
def FactorGraph.get_fnodes [DecidableEq β] (g : FactorGraph β ω) : Except PyErr (List β) :=
  typedNodes NodeType.factor_node g.nodes

/-- The input to `convert_to_fg`: a networkx graph with node iteration
order, edge list, the per-node `'bipartite'` attribute (`none` = absent),
and the node objects' own `.type` attribute (`none` = absent; relevant
only for nodes the conversion passes through unchanged). -/
structure NxGraph (α : Type) where
  nodes : List α
  edges : List (α × α)
  bipartite : α → Option Nat
  ntype : α → Option NodeType

/-- The `.type` attribute of a converted-graph node object: the factories
produce correctly typed instances, a passed-through original keeps its own
(possibly absent) type. -/
def FGNode.pytype (ntype : α → Option NodeType) : FGNode α → Option NodeType
  | .vnode _ => some NodeType.variable_node
  | .fnode _ => some NodeType.factor_node
  | .orig a => ntype a

/-- A graph as `nx.relabel_nodes` returns it: node and edge structure only
(attributes are copied as well by networkx, but nothing downstream of the
relabelling reads them). -/
structure PlainGraph (β : Type) where
  nodes : List β
  edges : List (β × β)

/-- networkx node insertion over a sequence keeps the first occurrence of a
duplicate. -/
def pyDedupGo [DecidableEq β] (seen : List β) : List β → List β
  | [] => []
  | x :: xs => if x ∈ seen then pyDedupGo seen xs else x :: pyDedupGo (x :: seen) xs

/-- Deduplicate a node sequence, keeping first occurrences. -/
def pyDedup [DecidableEq β] (l : List β) : List β := pyDedupGo [] l

/-- networkx edge insertion over a sequence drops a later duplicate of an
already present undirected edge. -/
def addEdgeDedup [DecidableEq β] (es : List (β × β)) (e : β × β) : List (β × β) :=
  if ∃ e' ∈ es, sameEdge e' e then es else es ++ [e]

/-- Deduplicate an undirected edge sequence, keeping first occurrences. -/
def dedupEdges [DecidableEq β] (l : List (β × β)) : List (β × β) :=
  l.foldl addEdgeDedup []

/-- `nx.relabel_nodes(graph, mapping)` with `copy=True`: a fresh graph with
every node and edge endpoint pushed through the mapping. -/
def relabel_nodes [DecidableEq β] (g : NxGraph α) (f : α → β) : PlainGraph β :=
  { nodes := pyDedup (g.nodes.map f),
    edges := dedupEdges (g.edges.map (fun e => (f e.1, f e.2))) }

/-- `mapping = dict(zip(graph, graph))`: the identity dictionary on the
input's nodes; a node mapped to itself is the passed-through original. -/
def mapping0 [DecidableEq α] (g : NxGraph α) : List (α × FGNode α) :=
  pyDictOf (g.nodes.map (fun a => (a, FGNode.orig a)))

/-- `[n for (n, d) in graph.nodes(data=True) if d['bipartite'] == t]`:
raises `KeyError` at a node without the `'bipartite'` attribute. -/
def bipFilter (bip : α → Option Nat) (t : Nat) : List α → Except PyErr (List α)
  | [] => .ok []
  | n :: rest =>
    match bip n with
    | none => .error (.keyError "bipartite")
    | some b => (bipFilter bip t rest).map (fun r => if b = t then n :: r else r)

/-- `obj_box = [mk 0, ..., mk (len l - 1)]` consumed by `obj_box.pop()`
while iterating `l`: the `k`-th element of `l` is paired with
`mk (len l - 1 - k)`, because `pop()` removes from the end. -/
def popAssign (l : List α) (mk : Nat → γ) : List (α × γ) :=
  (l.zip (List.range l.length).reverse).map (fun p => (p.1, mk p.2))

/-- The relabelling dictionary built by the bipartite branch of
`convert_to_fg` (lines 155-162): identity, overwritten by fresh variable
nodes on the `'bipartite' == 0` part and fresh factor nodes on the
`'bipartite' == 1` part. -/
def bip_mapping [DecidableEq α] (g : NxGraph α) : Except PyErr (List (α × FGNode α)) := do
  let vn ← bipFilter g.bipartite 0 g.nodes
  let fn ← bipFilter g.bipartite 1 g.nodes
  pure (dictUpdates (dictUpdates (mapping0 g) (popAssign vn FGNode.vnode))
    (popAssign fn FGNode.fnode))

/-- The relabelling dictionary built by the non-bipartite branch
(lines 169-170): every node is overwritten by a fresh variable node. -/
def nonbip_mapping [DecidableEq α] (g : NxGraph α) : List (α × FGNode α) :=
  dictUpdates (mapping0 g) (popAssign g.nodes FGNode.vnode)

/-- The mapping as applied by `nx.relabel_nodes`: `mapping.get(n, n)`. -/
def mapApply [DecidableEq α] (m : List (α × FGNode α)) (a : α) : FGNode α :=
  dictGetD m a (FGNode.orig a)

/-- `i = list(range(E))` consumed by `i.pop()`: remove and return the last
element. -/
def popLast : List Nat → Option (Nat × List Nat)
  | [] => none
  | [x] => some (x, [])
  | x :: y :: xs => (popLast (y :: xs)).map (fun p => (p.1, x :: p.2))

/-- The factor-synthesis loop of the non-bipartite branch (lines 175-179):
for each edge, pop the next index off the end of `i`, insert the fresh
factor node, and insert the two edges through it. -/
def fgLoop [DecidableEq α] (ty : FGNode α → Option NodeType) :
    FactorGraph (FGNode α) α → List (FGNode α × FGNode α) → List Nat →
    Except PyErr (FactorGraph (FGNode α) α)
  | g, [], _ => .ok g
  | g, e :: rest, idxs =>
    match popLast idxs with
    | none => .error .indexError
    | some (k, idxs') =>
      match g.set_node ty (FGNode.fnode k) [] with
      | .error err => .error err
      | .ok g1 =>
        fgLoop ty (g1.set_edges [(e.1, FGNode.fnode k), (FGNode.fnode k, e.2)]) rest idxs'

/-- `G.node[n]['origin'] = w`: overwrite one node's `'origin'` attribute. -/
def setOriginOne [DecidableEq β] (l : List (β × NodeData ω)) (n : β) (w : ω) :
    List (β × NodeData ω) :=
  l.map (fun p => if p.1 = n then (p.1, { p.2 with origin := some w }) else p)

/-- `nx.set_node_attributes(fgraph, 'origin', origin)` (networkx 1.x):
`G.node[node]['origin'] = value` for each pair, raising `KeyError` at a
node absent from the graph. -/
def setOriginAll [DecidableEq β] (g : FactorGraph β ω) :
    List (β × ω) → Except PyErr (FactorGraph β ω)
  | [] => .ok g
  | (n, w) :: rest =>
    if keyMem g.nodes n then
      setOriginAll { nodes := setOriginOne g.nodes n w, edges := g.edges, owned := g.owned } rest
    else .error (.keyError "origin")

/-- The bipartite branch of `convert_to_fg` (lines 155-167 plus the
shared post-processing of lines 181-183). -/
def convert_bip [DecidableEq α] (g : NxGraph α) :
    Except PyErr (FactorGraph (FGNode α) α) := do
  let m ← bip_mapping g
  let r := relabel_nodes g (mapApply m)
  let fg ← FactorGraph.empty.set_nodes (FGNode.pytype g.ntype) r.nodes
  let fg := fg.set_edges r.edges
  setOriginAll fg (invertDict m)

/-- The non-bipartite branch of `convert_to_fg` (lines 168-179 plus the
shared post-processing of lines 181-183). -/
def convert_nonbip [DecidableEq α] (g : NxGraph α) :
    Except PyErr (FactorGraph (FGNode α) α) := do
  let m := nonbip_mapping g
  let r := relabel_nodes g (mapApply m)
  let fg ← FactorGraph.empty.set_nodes (FGNode.pytype g.ntype) r.nodes
  let fg ← fgLoop (FGNode.pytype g.ntype) fg r.edges (List.range r.edges.length)
  setOriginAll fg (invertDict m)

/-- The body of `convert_to_fg` (lines 152-185), producing the built
factor graph. -/
def convert_body [DecidableEq α] (g : NxGraph α) (bipartite : Bool) :
    Except PyErr (FactorGraph (FGNode α) α) :=
  if bipartite then convert_bip g else convert_nonbip g

/-- `convert_to_fg(graph, vnode, fnode, bipartite)`.  The result pairs the
caller's input-graph object, as the call leaves it, with the returned
factor graph, so that the frame property is statable. -/
def convert_to_fg [DecidableEq α] (g : NxGraph α) (bipartite : Bool) :
    Except PyErr (NxGraph α × FactorGraph (FGNode α) α) :=
  (convert_body g bipartite).map (fun fg => (g, fg))

/-- The `'type'` attribute stored for a node of the factor graph: outer
`none` = node absent, inner `none` = node present but untyped. -/
def FactorGraph.typeAttr [DecidableEq β] (g : FactorGraph β ω) (n : β) :
    Option (Option NodeType) :=
  (lookupNode g.nodes n).map (fun d => d.type)

/-- The `'origin'` attribute stored for a node of the factor graph. -/
def FactorGraph.originAttr [DecidableEq β] (g : FactorGraph β ω) (n : β) :
    Option (Option ω) :=
  (lookupNode g.nodes n).map (fun d => d.origin)

/-- Node membership in the factor graph's storage. -/
def FactorGraph.hasNode [DecidableEq β] (g : FactorGraph β ω) (n : β) : Prop :=
  keyMem g.nodes n

instance [DecidableEq β] (g : FactorGraph β ω) (n : β) : Decidable (g.hasNode n) := by
  unfold FactorGraph.hasNode; infer_instance


/-- The value a sequence of `dict` updates leaves at a key: the last pair
with that key wins. -/
def lastVal [DecidableEq α] : List (α × γ) → α → Option γ
  | [], _ => none
  | p :: rest, a =>
    match lastVal rest a with
    | some v => some v
    | none => if p.1 = a then some p.2 else none

/-- The `'bipartite' == 0` part of the input, in iteration order. -/
def vnList [DecidableEq α] (g : NxGraph α) : List α :=
  g.nodes.filter (fun n => decide (g.bipartite n = some 0))

/-- The `'bipartite' == 1` part of the input, in iteration order. -/
def fnList [DecidableEq α] (g : NxGraph α) : List α :=
  g.nodes.filter (fun n => decide (g.bipartite n = some 1))

/-- The dictionary the bipartite branch builds when every node is
labelled (the `.ok` payload of `bip_mapping`). -/
def bipDict [DecidableEq α] (g : NxGraph α) : List (α × FGNode α) :=
  dictUpdates (dictUpdates (mapping0 g) (popAssign (vnList g) FGNode.vnode))
    (popAssign (fnList g) FGNode.fnode)

/-- The synthesized factor nodes of the non-bipartite loop over `m` edges,
in insertion order (`fnode (m-1), ..., fnode 0`, since indices are popped
off the end of `list(range(m))`). -/
def fnodeKeys (m : Nat) : List (FGNode α) :=
  (List.range m).reverse.map FGNode.fnode

/-- The node-storage entries the non-bipartite loop appends. -/
def fnodeEntries (m : Nat) : List (FGNode α × NodeData α) :=
  (List.range m).reverse.map (fun k =>
    (FGNode.fnode k, { type := some NodeType.factor_node, origin := none, extra := [] }))

/-- The edges the non-bipartite loop inserts: the `j`-th edge `(u, v)` of
`es` becomes `(u, fnode k)` and `(fnode k, v)` with `k = |es| - 1 - j`. -/
def loopEdges (es : List (FGNode α × FGNode α)) : List (FGNode α × FGNode α) :=
  (es.zip (List.range es.length).reverse).flatMap
    (fun p => [(p.1.1, FGNode.fnode p.2), (FGNode.fnode p.2, p.1.2)])

/-- The effect of `nx.set_node_attributes` on the node storage, as a pure
function: each node keyed in `ps` gets its `'origin'` attribute set. -/
def applyOrigins [DecidableEq β] (ps : List (β × ω)) (l : List (β × NodeData ω)) :
    List (β × NodeData ω) :=
  l.map (fun p => match lastVal ps p.1 with
    | some w => (p.1, { p.2 with origin := some w })
    | none => p)

/-- Every edge endpoint of the input graph is one of its nodes (true of
every actual networkx graph, where inserting an edge inserts its
endpoints). -/
def NxGraph.edgesClosed (g : NxGraph α) : Prop :=
  ∀ e ∈ g.edges, e.1 ∈ g.nodes ∧ e.2 ∈ g.nodes

/-- The input has no self-loops. -/
def NxGraph.noSelfLoops (g : NxGraph α) : Prop :=
  ∀ e ∈ g.edges, e.1 ≠ e.2

/-- The input edge list has no repeated undirected edge (true of every
actual `nx.Graph`, which stores each undirected edge once). -/
def NxGraph.noParallel [DecidableEq α] (g : NxGraph α) : Prop :=
  g.edges.Pairwise (fun e e' => ¬ sameEdge e e')

/-- Every node carries the `'bipartite'` label `0` or `1` (the stated
precondition of the bipartite mode). -/
def NxGraph.labels01 (g : NxGraph α) : Prop :=
  ∀ n ∈ g.nodes, g.bipartite n = some 0 ∨ g.bipartite n = some 1

/-- Every edge of the input joins a `0`-labelled and a `1`-labelled node
(the input really is bipartite with respect to its labelling). -/
def NxGraph.edgesCross (g : NxGraph α) : Prop :=
  ∀ e ∈ g.edges, (g.bipartite e.1 = some 0 ∧ g.bipartite e.2 = some 1)
    ∨ (g.bipartite e.1 = some 1 ∧ g.bipartite e.2 = some 0)

/-- The output invariant of claim C1: every stored node is typed
`variable` or `factor`, and every edge joins one node of each type. -/
def partitionOk [DecidableEq β] (fg : FactorGraph β ω) : Prop :=
  (∀ p ∈ fg.nodes, p.2.type = some NodeType.variable_node
      ∨ p.2.type = some NodeType.factor_node) ∧
  (∀ e ∈ fg.edges,
    (fg.typeAttr e.1 = some (some NodeType.variable_node)
      ∧ fg.typeAttr e.2 = some (some NodeType.factor_node)) ∨
    (fg.typeAttr e.1 = some (some NodeType.factor_node)
      ∧ fg.typeAttr e.2 = some (some NodeType.variable_node)))

instance [DecidableEq α] (g : NxGraph α) : Decidable g.edgesClosed :=
  inferInstanceAs (Decidable (∀ e ∈ g.edges, e.1 ∈ g.nodes ∧ e.2 ∈ g.nodes))

instance [DecidableEq α] (g : NxGraph α) : Decidable g.noSelfLoops :=
  inferInstanceAs (Decidable (∀ e ∈ g.edges, e.1 ≠ e.2))

instance [DecidableEq α] (g : NxGraph α) : Decidable g.noParallel :=
  inferInstanceAs (Decidable (g.edges.Pairwise (fun e e' => ¬ sameEdge e e')))

instance (g : NxGraph α) : Decidable g.labels01 :=
  inferInstanceAs (Decidable (∀ n ∈ g.nodes,
    g.bipartite n = some 0 ∨ g.bipartite n = some 1))

instance (g : NxGraph α) : Decidable g.edgesCross :=
  inferInstanceAs (Decidable (∀ e ∈ g.edges,
    (g.bipartite e.1 = some 0 ∧ g.bipartite e.2 = some 1)
      ∨ (g.bipartite e.1 = some 1 ∧ g.bipartite e.2 = some 0)))

instance [DecidableEq β] (fg : FactorGraph β ω) : Decidable (partitionOk fg) :=
  inferInstanceAs (Decidable ((∀ p ∈ fg.nodes, p.2.type = some NodeType.variable_node
      ∨ p.2.type = some NodeType.factor_node) ∧
    (∀ e ∈ fg.edges,
      (fg.typeAttr e.1 = some (some NodeType.variable_node)
        ∧ fg.typeAttr e.2 = some (some NodeType.factor_node)) ∨
      (fg.typeAttr e.1 = some (some NodeType.factor_node)
        ∧ fg.typeAttr e.2 = some (some NodeType.variable_node)))))

/-- Example input: the empty graph. -/
def exEmpty : NxGraph Nat :=
  { nodes := [], edges := [], bipartite := fun _ => none, ntype := fun _ => none }

/-- Example input: a single edge between two nodes, no attributes. -/
def exEdge : NxGraph Nat :=
  { nodes := [0, 1], edges := [(0, 1)], bipartite := fun _ => none, ntype := fun _ => none }

/-- Example input: the path 0 - 1 - 2 (spec Scenario A). -/
def exPath : NxGraph Nat :=
  { nodes := [0, 1, 2], edges := [(0, 1), (1, 2)],
    bipartite := fun _ => none, ntype := fun _ => none }

/-- Example input: bipartite graph, nodes 0 and 1 labelled `0`, node 2
labelled `1`, edges (0,2) and (1,2) (spec Scenario B). -/
def exBip : NxGraph Nat :=
  { nodes := [0, 1, 2], edges := [(0, 2), (1, 2)],
    bipartite := fun a => if a ≤ 1 then some 0 else some 1, ntype := fun _ => none }

/-- Example input: two nodes, both labelled `0` (exposes the index order
of the factories). -/
def exTwoV : NxGraph Nat :=
  { nodes := [10, 11], edges := [], bipartite := fun _ => some 0, ntype := fun _ => none }

/-- Example input: one node without the `'bipartite'` attribute. -/
def exNoLabel : NxGraph Nat :=
  { nodes := [5], edges := [], bipartite := fun _ => none, ntype := fun _ => none }

/-- Example input: node 0 labelled `0`, node 1 labelled `5` (neither part);
node 1 is an object that carries its own `.type` attribute. -/
def exOdd : NxGraph Nat :=
  { nodes := [0, 1], edges := [],
    bipartite := fun a => if a = 0 then some 0 else some 5,
    ntype := fun a => if a = 1 then some NodeType.variable_node else none }

/-- Example factor graph with one variable and one factor node. -/
def exFG7 : FactorGraph (FGNode Nat) Nat :=
  { nodes := [(FGNode.vnode 0,
      { type := some NodeType.variable_node, origin := none, extra := [] }),
      (FGNode.fnode 0,
      { type := some NodeType.factor_node, origin := none, extra := [] })],
    edges := [], owned := [] }

/-- The factor graph the non-bipartite branch builds from a simple input
(the `.ok` payload computed by `convert_nonbip`). -/
def nonbipFG [DecidableEq α] (g : NxGraph α) : FactorGraph (FGNode α) α :=
  { nodes := g.nodes.map (fun a => (mapApply (nonbip_mapping g) a,
      { type := some NodeType.variable_node, origin := some a, extra := [] }))
      ++ fnodeEntries g.edges.length,
    edges := loopEdges (g.edges.map (fun e =>
      (mapApply (nonbip_mapping g) e.1, mapApply (nonbip_mapping g) e.2))),
    owned := g.nodes.map (mapApply (nonbip_mapping g)) ++ fnodeKeys g.edges.length }

/-! ### Association-list (Python dict) lemmas -/

theorem keyMem_nil [DecidableEq α] (k : α) : ¬ keyMem ([] : List (α × γ)) k := by
  simp [keyMem]

theorem keyMem_cons [DecidableEq α] (p : α × γ) (m : List (α × γ)) (k : α) :
    keyMem (p :: m) k ↔ p.1 = k ∨ keyMem m k := by
  simp [keyMem]

theorem keyMem_append [DecidableEq α] (l l' : List (α × γ)) (k : α) :
    keyMem (l ++ l') k ↔ keyMem l k ∨ keyMem l' k := by
  unfold keyMem
  constructor
  · rintro ⟨p, hm, hk⟩
    rcases List.mem_append.mp hm with h | h
    · exact Or.inl ⟨p, h, hk⟩
    · exact Or.inr ⟨p, h, hk⟩
  · rintro (⟨p, h, hk⟩ | ⟨p, h, hk⟩)
    · exact ⟨p, List.mem_append.mpr (Or.inl h), hk⟩
    · exact ⟨p, List.mem_append.mpr (Or.inr h), hk⟩

theorem lookupNode_nil [DecidableEq β] (n : β) :
    lookupNode ([] : List (β × NodeData ω)) n = none := rfl

theorem lookupNode_cons [DecidableEq β] (p : β × NodeData ω) (rest : List (β × NodeData ω))
    (n : β) : lookupNode (p :: rest) n = if p.1 = n then some p.2 else lookupNode rest n := rfl

theorem lookupNode_isSome [DecidableEq β] (l : List (β × NodeData ω)) (n : β) :
    (lookupNode l n).isSome ↔ keyMem l n := by
  induction l with
  | nil => simp [lookupNode_nil, keyMem]
  | cons p rest ih =>
    rw [keyMem_cons, lookupNode_cons]
    by_cases h : p.1 = n <;> simp [h, ih]

theorem lookupNode_eq_none [DecidableEq β] (l : List (β × NodeData ω)) (n : β) :
    lookupNode l n = none ↔ ¬ keyMem l n := by
  rw [← lookupNode_isSome]
  cases lookupNode l n <;> simp

theorem lookupNode_append_left [DecidableEq β] (l l' : List (β × NodeData ω)) (n : β)
    (d : NodeData ω) (h : lookupNode l n = some d) : lookupNode (l ++ l') n = some d := by
  induction l with
  | nil => simp [lookupNode_nil] at h
  | cons p rest ih =>
    rw [lookupNode_cons] at h
    rw [List.cons_append, lookupNode_cons]
    by_cases hp : p.1 = n <;> simp [hp] at h ⊢
    · exact h
    · exact ih h

theorem lookupNode_append_right [DecidableEq β] (l l' : List (β × NodeData ω)) (n : β)
    (h : lookupNode l n = none) : lookupNode (l ++ l') n = lookupNode l' n := by
  induction l with
  | nil => simp [lookupNode_nil]
  | cons p rest ih =>
    rw [lookupNode_cons] at h
    rw [List.cons_append, lookupNode_cons]
    by_cases hp : p.1 = n <;> simp [hp] at h ⊢
    exact ih h

theorem lookupNode_map_self [DecidableEq β] (ns : List β) (dat : β → NodeData ω) (n : β)
    (h : n ∈ ns) : lookupNode (ns.map (fun x => (x, dat x))) n = some (dat n) := by
  induction ns with
  | nil => simp at h
  | cons x rest ih =>
    rw [List.map_cons, lookupNode_cons]
    by_cases hx : x = n
    · subst hx; simp
    · simp only [List.mem_cons] at h
      rcases h with h | h
      · exact absurd h.symm hx
      · simpa [hx] using ih h

theorem lookupNode_mem [DecidableEq β] (l : List (β × NodeData ω)) (n : β) (d : NodeData ω)
    (h : lookupNode l n = some d) : (n, d) ∈ l := by
  induction l with
  | nil => simp [lookupNode_nil] at h
  | cons p rest ih =>
    rw [lookupNode_cons] at h
    by_cases hp : p.1 = n <;> simp [hp] at h
    · have hpd : p = (n, d) := by
        rcases p with ⟨p1, p2⟩
        simp at hp h
        rw [hp, h]
      exact hpd ▸ List.mem_cons_self p rest
    · exact List.mem_cons_of_mem p (ih h)

theorem mem_lookupNode_of_nodup [DecidableEq β] (l : List (β × NodeData ω)) (n : β)
    (d : NodeData ω) (hnd : (l.map Prod.fst).Nodup) (h : (n, d) ∈ l) :
    lookupNode l n = some d := by
  induction l with
  | nil => simp at h
  | cons p rest ih =>
    simp only [List.map_cons, List.nodup_cons] at hnd
    rw [lookupNode_cons]
    rcases List.mem_cons.mp h with h | h
    · rw [← h]; simp
    · have hne : p.1 ≠ n := by
        intro he
        exact hnd.1 (he ▸ (List.mem_map.mpr ⟨(n, d), h, rfl⟩))
      simp only [hne, if_false]
      exact ih hnd.2 h

theorem dictGetD_nil [DecidableEq α] (a : α) (d : γ) : dictGetD ([] : List (α × γ)) a d = d := rfl

theorem dictGetD_cons [DecidableEq α] (p : α × γ) (m : List (α × γ)) (a : α) (d : γ) :
    dictGetD (p :: m) a d = if p.1 = a then p.2 else dictGetD m a d := rfl

theorem dictGetD_append [DecidableEq α] (l l' : List (α × γ)) (a : α) (d : γ) :
    dictGetD (l ++ l') a d = if keyMem l a then dictGetD l a d else dictGetD l' a d := by
  induction l with
  | nil => simp [dictGetD_nil, keyMem_nil]
  | cons p rest ih =>
    rw [List.cons_append, dictGetD_cons, dictGetD_cons]
    by_cases hp : p.1 = a
    · simp [hp, keyMem_cons]
    · rw [if_neg hp, if_neg hp, ih]
      by_cases hm : keyMem rest a
      · rw [if_pos hm, if_pos ((keyMem_cons p rest a).mpr (Or.inr hm))]
      · rw [if_neg hm, if_neg (fun hc => by
          rcases (keyMem_cons p rest a).mp hc with h | h
          · exact hp h
          · exact hm h)]

theorem dictGetD_not_mem [DecidableEq α] (m : List (α × γ)) (a : α) (d : γ)
    (h : ¬ keyMem m a) : dictGetD m a d = d := by
  induction m with
  | nil => rfl
  | cons p rest ih =>
    rw [dictGetD_cons]
    rw [keyMem_cons] at h
    push_neg at h
    rw [if_neg h.1]
    exact ih h.2

theorem dictGetD_default_irrel [DecidableEq α] (m : List (α × γ)) (a : α) (d d' : γ)
    (h : keyMem m a) : dictGetD m a d = dictGetD m a d' := by
  induction m with
  | nil => exact absurd h (keyMem_nil a)
  | cons p rest ih =>
    rw [dictGetD_cons, dictGetD_cons]
    by_cases hp : p.1 = a
    · simp [hp]
    · rcases (keyMem_cons p rest a).mp h with h' | h'
      · exact absurd h' hp
      · simp [hp, ih h']

theorem dictGetD_entry_of_nodup [DecidableEq α] (m : List (α × γ)) (a : α) (v : γ) (d : γ)
    (hnd : (m.map Prod.fst).Nodup) (h : (a, v) ∈ m) : dictGetD m a d = v := by
  induction m with
  | nil => simp at h
  | cons p rest ih =>
    simp only [List.map_cons, List.nodup_cons] at hnd
    rw [dictGetD_cons]
    rcases List.mem_cons.mp h with h | h
    · rw [← h]; simp
    · have hne : p.1 ≠ a := by
        intro he
        exact hnd.1 (he ▸ (List.mem_map.mpr ⟨(a, v), h, rfl⟩))
      simp only [hne, if_false]
      exact ih hnd.2 h

theorem dictGetD_map_replace_ne [DecidableEq α] (m : List (α × γ)) (k : α) (v : γ) (a : α)
    (d : γ) (hne : a ≠ k) :
    dictGetD (m.map (fun p => if p.1 = k then (k, v) else p)) a d = dictGetD m a d := by
  induction m with
  | nil => simp [dictGetD_nil]
  | cons p rest ih =>
    rw [List.map_cons, dictGetD_cons, dictGetD_cons]
    by_cases hp : p.1 = k
    · have : k ≠ a := fun he => hne he.symm
      simp [hp, this, ih]
    · simp only [hp, if_false]
      by_cases hpa : p.1 = a <;> simp [hpa, ih]

theorem dictGetD_map_replace_eq [DecidableEq α] (m : List (α × γ)) (k : α) (v : γ) (d : γ)
    (h : keyMem m k) :
    dictGetD (m.map (fun p => if p.1 = k then (k, v) else p)) k d = v := by
  induction m with
  | nil => exact absurd h (keyMem_nil k)
  | cons p rest ih =>
    rw [List.map_cons, dictGetD_cons]
    by_cases hp : p.1 = k
    · simp [hp]
    · rcases (keyMem_cons p rest k).mp h with h' | h'
      · exact absurd h' hp
      · simp [hp, ih h']

theorem dictGetD_update [DecidableEq α] (m : List (α × γ)) (k : α) (v : γ) (a : α) (d : γ) :
    dictGetD (dictUpdate m k v) a d = if a = k then v else dictGetD m a d := by
  unfold dictUpdate
  by_cases hm : keyMem m k
  · rw [if_pos hm]
    by_cases ha : a = k
    · subst ha; rw [if_pos rfl, dictGetD_map_replace_eq m a v d hm]
    · rw [if_neg ha, dictGetD_map_replace_ne m k v a d ha]
  · rw [if_neg hm, dictGetD_append]
    by_cases ha : a = k
    · subst ha
      rw [if_neg hm, dictGetD_cons]
      simp
    · rw [if_neg ha]
      by_cases hma : keyMem m a
      · rw [if_pos hma]
      · rw [if_neg hma, dictGetD_cons, if_neg (fun h => ha h.symm), dictGetD_nil,
          dictGetD_not_mem m a d hma]

theorem lastVal_nil [DecidableEq α] (a : α) : lastVal ([] : List (α × γ)) a = none := rfl

theorem lastVal_cons [DecidableEq α] (p : α × γ) (ps : List (α × γ)) (a : α) :
    lastVal (p :: ps) a = match lastVal ps a with
      | some v => some v
      | none => if p.1 = a then some p.2 else none := rfl

theorem lastVal_eq_none [DecidableEq α] (ps : List (α × γ)) (a : α) :
    lastVal ps a = none ↔ ¬ keyMem ps a := by
  induction ps with
  | nil => simp [lastVal_nil, keyMem_nil]
  | cons p rest ih =>
    rw [lastVal_cons, keyMem_cons]
    cases hr : lastVal rest a with
    | some v =>
      simp only []
      constructor
      · intro h; exact absurd h (by simp)
      · intro h
        exact absurd (Or.inr (by
          by_contra hk
          rw [(ih).mpr hk] at hr
          exact Option.noConfusion hr)) h
    | none =>
      have hrm : ¬ keyMem rest a := (ih).mp hr
      by_cases hp : p.1 = a <;> simp [hp, hrm]

theorem dictGetD_updates [DecidableEq α] (m : List (α × γ)) (ps : List (α × γ)) (a : α)
    (d : γ) : dictGetD (dictUpdates m ps) a d = (lastVal ps a).getD (dictGetD m a d) := by
  induction ps generalizing m with
  | nil => simp [dictUpdates, lastVal_nil]
  | cons p rest ih =>
    have hstep : dictUpdates m (p :: rest) = dictUpdates (dictUpdate m p.1 p.2) rest := rfl
    rw [hstep, ih, dictGetD_update, lastVal_cons]
    cases hr : lastVal rest a with
    | some v => simp
    | none =>
      by_cases hp : p.1 = a
      · rw [if_pos hp, if_pos hp.symm]
        simp
      · rw [if_neg hp, if_neg (fun h => hp h.symm)]

theorem lastVal_mem [DecidableEq α] (ps : List (α × γ)) (a : α) (v : γ)
    (h : lastVal ps a = some v) : (a, v) ∈ ps := by
  induction ps with
  | nil => simp [lastVal_nil] at h
  | cons p rest ih =>
    rw [lastVal_cons] at h
    cases hr : lastVal rest a with
    | some w =>
      rw [hr] at h
      simp at h
      exact List.mem_cons_of_mem p (ih (h ▸ hr))
    | none =>
      rw [hr] at h
      simp only [] at h
      by_cases hp : p.1 = a
      · rw [if_pos hp] at h
        have : p = (a, v) := by
          rcases p with ⟨p1, p2⟩
          simp at hp h ⊢
          exact ⟨hp, h⟩
        exact this ▸ List.mem_cons_self p rest
      · rw [if_neg hp] at h
        exact Option.noConfusion h

theorem lastVal_of_nodup [DecidableEq α] (ps : List (α × γ)) (a : α) (v : γ)
    (hnd : (ps.map Prod.fst).Nodup) (h : (a, v) ∈ ps) : lastVal ps a = some v := by
  induction ps with
  | nil => simp at h
  | cons p rest ih =>
    simp only [List.map_cons, List.nodup_cons] at hnd
    rw [lastVal_cons]
    rcases List.mem_cons.mp h with h | h
    · have hr : lastVal rest a = none := by
        rw [lastVal_eq_none]
        rintro ⟨q, hq, hqa⟩
        have hq1 : q.1 ∈ List.map Prod.fst rest := List.mem_map.mpr ⟨q, hq, rfl⟩
        have hp1 : p.1 = a := by rw [← h]
        rw [hqa, ← hp1] at hq1
        exact hnd.1 hq1
      rw [hr]
      simp [← h]
    · rw [ih hnd.2 h]

theorem keys_dictUpdate_of_mem [DecidableEq α] (m : List (α × γ)) (k : α) (v : γ)
    (h : keyMem m k) : (dictUpdate m k v).map Prod.fst = m.map Prod.fst := by
  unfold dictUpdate
  rw [if_pos h, List.map_map]
  apply List.map_congr_left
  intro p _
  by_cases hp : p.1 = k <;> simp [hp]

theorem keys_dictUpdate_of_not_mem [DecidableEq α] (m : List (α × γ)) (k : α) (v : γ)
    (h : ¬ keyMem m k) : (dictUpdate m k v).map Prod.fst = m.map Prod.fst ++ [k] := by
  unfold dictUpdate
  rw [if_neg h, List.map_append]
  rfl

theorem keyMem_iff_mem_keys [DecidableEq α] (m : List (α × γ)) (k : α) :
    keyMem m k ↔ k ∈ m.map Prod.fst := by
  unfold keyMem
  constructor
  · rintro ⟨p, hp, hk⟩
    exact hk ▸ List.mem_map.mpr ⟨p, hp, rfl⟩
  · intro h
    rcases List.mem_map.mp h with ⟨p, hp, hk⟩
    exact ⟨p, hp, hk⟩

theorem keyMem_dictUpdate [DecidableEq α] (m : List (α × γ)) (k : α) (v : γ) (x : α) :
    keyMem (dictUpdate m k v) x ↔ keyMem m x ∨ x = k := by
  rw [keyMem_iff_mem_keys, keyMem_iff_mem_keys]
  by_cases h : keyMem m k
  · rw [keys_dictUpdate_of_mem m k v h]
    constructor
    · exact Or.inl
    · rintro (hx | hx)
      · exact hx
      · rw [hx, ← keyMem_iff_mem_keys]; exact h
  · rw [keys_dictUpdate_of_not_mem m k v h]
    simp

theorem keys_dictUpdate_nodup [DecidableEq α] (m : List (α × γ)) (k : α) (v : γ)
    (h : (m.map Prod.fst).Nodup) : ((dictUpdate m k v).map Prod.fst).Nodup := by
  by_cases hk : keyMem m k
  · rw [keys_dictUpdate_of_mem m k v hk]; exact h
  · rw [keys_dictUpdate_of_not_mem m k v hk]
    rw [List.nodup_append]
    refine ⟨h, List.nodup_singleton k, ?_⟩
    intro x hx
    simp only [List.mem_singleton]
    intro he
    exact hk (he ▸ (keyMem_iff_mem_keys m x).mpr hx)

theorem keys_dictUpdates_nodup [DecidableEq α] (m : List (α × γ)) (ps : List (α × γ))
    (h : (m.map Prod.fst).Nodup) : ((dictUpdates m ps).map Prod.fst).Nodup := by
  induction ps generalizing m with
  | nil => exact h
  | cons p rest ih =>
    have hstep : dictUpdates m (p :: rest) = dictUpdates (dictUpdate m p.1 p.2) rest := rfl
    rw [hstep]
    exact ih _ (keys_dictUpdate_nodup m p.1 p.2 h)

theorem keys_dictUpdates_of_mem [DecidableEq α] (m : List (α × γ)) (ps : List (α × γ))
    (h : ∀ q ∈ ps, keyMem m q.1) :
    (dictUpdates m ps).map Prod.fst = m.map Prod.fst := by
  induction ps generalizing m with
  | nil => rfl
  | cons p rest ih =>
    have hstep : dictUpdates m (p :: rest) = dictUpdates (dictUpdate m p.1 p.2) rest := rfl
    rw [hstep, ih, keys_dictUpdate_of_mem m p.1 p.2 (h p (List.mem_cons_self p rest))]
    intro q hq
    rw [keyMem_dictUpdate]
    exact Or.inl (h q (List.mem_cons_of_mem p hq))

theorem keyMem_dictUpdates [DecidableEq α] (m : List (α × γ)) (ps : List (α × γ)) (x : α) :
    keyMem (dictUpdates m ps) x ↔ keyMem m x ∨ keyMem ps x := by
  induction ps generalizing m with
  | nil => simp [dictUpdates, keyMem_nil]
  | cons p rest ih =>
    have hstep : dictUpdates m (p :: rest) = dictUpdates (dictUpdate m p.1 p.2) rest := rfl
    rw [hstep, ih, keyMem_dictUpdate, keyMem_cons]
    constructor
    · rintro ((h | h) | h)
      · exact Or.inl h
      · exact Or.inr (Or.inl h.symm)
      · exact Or.inr (Or.inr h)
    · rintro (h | h | h)
      · exact Or.inl (Or.inl h)
      · exact Or.inl (Or.inr h.symm)
      · exact Or.inr h

theorem mem_dictUpdate [DecidableEq α] (m : List (α × γ)) (k : α) (v : γ) (p : α × γ)
    (h : p ∈ dictUpdate m k v) : p ∈ m ∨ p = (k, v) := by
  unfold dictUpdate at h
  by_cases hk : keyMem m k
  · rw [if_pos hk] at h
    rcases List.mem_map.mp h with ⟨q, hq, hqp⟩
    by_cases hqk : q.1 = k
    · rw [if_pos hqk] at hqp
      exact Or.inr hqp.symm
    · rw [if_neg hqk] at hqp
      exact Or.inl (hqp ▸ hq)
  · rw [if_neg hk] at h
    rcases List.mem_append.mp h with h | h
    · exact Or.inl h
    · exact Or.inr (List.mem_singleton.mp h)

theorem mem_dictUpdates [DecidableEq α] (m : List (α × γ)) (ps : List (α × γ)) (p : α × γ)
    (h : p ∈ dictUpdates m ps) : p ∈ m ∨ p ∈ ps := by
  induction ps generalizing m with
  | nil => exact Or.inl h
  | cons q rest ih =>
    have hstep : dictUpdates m (q :: rest) = dictUpdates (dictUpdate m q.1 q.2) rest := rfl
    rw [hstep] at h
    rcases ih _ h with h' | h'
    · rcases mem_dictUpdate m q.1 q.2 p h' with h'' | h''
      · exact Or.inl h''
      · exact Or.inr (h'' ▸ List.mem_cons_self q rest)
    · exact Or.inr (List.mem_cons_of_mem q h')

theorem keys_pyDictOf_nodup [DecidableEq α] (ps : List (α × γ)) :
    ((pyDictOf ps).map Prod.fst).Nodup := by
  unfold pyDictOf
  exact keys_dictUpdates_nodup [] ps (by simp)

theorem keyMem_pyDictOf [DecidableEq α] (ps : List (α × γ)) (x : α) :
    keyMem (pyDictOf ps) x ↔ keyMem ps x := by
  unfold pyDictOf
  rw [keyMem_dictUpdates]
  simp [keyMem_nil]

theorem mem_pyDictOf [DecidableEq α] (ps : List (α × γ)) (p : α × γ)
    (h : p ∈ pyDictOf ps) : p ∈ ps := by
  rcases mem_dictUpdates [] ps p h with h' | h'
  · simp at h'
  · exact h'

theorem dictUpdate_cons_ne [DecidableEq α] (k : α) (v : γ) (m : List (α × γ)) (k' : α)
    (v' : γ) (hne : k' ≠ k) :
    dictUpdate ((k, v) :: m) k' v' = (k, v) :: dictUpdate m k' v' := by
  unfold dictUpdate
  have hiff : keyMem ((k, v) :: m) k' ↔ keyMem m k' := by
    rw [keyMem_cons]
    simp only []
    constructor
    · rintro (h | h)
      · exact absurd h hne.symm
      · exact h
    · exact Or.inr
  by_cases hk : keyMem m k'
  · rw [if_pos (hiff.mpr hk), if_pos hk, List.map_cons]
    rw [if_neg (show (k, v).1 ≠ k' from hne.symm)]
  · rw [if_neg (fun h => hk (hiff.mp h)), if_neg hk, List.cons_append]

theorem dictUpdates_cons_ne [DecidableEq α] (k : α) (v : γ) (m : List (α × γ))
    (ps : List (α × γ)) (hne : ∀ q ∈ ps, q.1 ≠ k) :
    dictUpdates ((k, v) :: m) ps = (k, v) :: dictUpdates m ps := by
  induction ps generalizing m with
  | nil => rfl
  | cons q rest ih =>
    have hstep : dictUpdates ((k, v) :: m) (q :: rest)
        = dictUpdates (dictUpdate ((k, v) :: m) q.1 q.2) rest := rfl
    rw [hstep, dictUpdate_cons_ne k v m q.1 q.2 (hne q (List.mem_cons_self q rest))]
    exact ih _ (fun q' hq' => hne q' (List.mem_cons_of_mem q hq'))

theorem pyDictOf_of_nodup [DecidableEq α] (ps : List (α × γ))
    (hnd : (ps.map Prod.fst).Nodup) : pyDictOf ps = ps := by
  induction ps with
  | nil => rfl
  | cons p rest ih =>
    simp only [List.map_cons, List.nodup_cons] at hnd
    have hstep : pyDictOf (p :: rest) = dictUpdates (dictUpdate [] p.1 p.2) rest := rfl
    have hupd : dictUpdate ([] : List (α × γ)) p.1 p.2 = [(p.1, p.2)] := by
      unfold dictUpdate
      rw [if_neg (keyMem_nil p.1)]
      rfl
    rw [hstep, hupd, dictUpdates_cons_ne]
    · rw [show ((p.1, p.2) : α × γ) = p from rfl]
      rw [show dictUpdates ([] : List (α × γ)) rest = pyDictOf rest from rfl, ih hnd.2]
    · intro q hq he
      exact hnd.1 (he ▸ List.mem_map.mpr ⟨q, hq, rfl⟩)

theorem dict_ext [DecidableEq α] (m : List (α × γ)) (df : α → γ)
    (hnd : (m.map Prod.fst).Nodup) :
    m = (m.map Prod.fst).map (fun k => (k, dictGetD m k (df k))) := by
  induction m with
  | nil => rfl
  | cons p rest ih =>
    simp only [List.map_cons, List.nodup_cons] at hnd
    rw [List.map_cons, List.map_cons]
    congr 1
    · rw [dictGetD_cons, if_pos rfl]
    · have hcg : List.map (fun k => (k, dictGetD (p :: rest) k (df k))) (List.map Prod.fst rest)
          = List.map (fun k => (k, dictGetD rest k (df k))) (List.map Prod.fst rest) := by
        apply List.map_congr_left
        intro k hk
        have hne : p.1 ≠ k := fun he => hnd.1 (he ▸ hk)
        rw [dictGetD_cons, if_neg hne]
      rw [hcg]
      exact ih hnd.2

theorem invertDict_eq_pyDictOf [DecidableEq γ] (m : List (α × γ)) :
    invertDict m = pyDictOf (m.map (fun p => (p.2, p.1))) := by
  unfold invertDict pyDictOf dictUpdates
  rw [List.foldl_map]

theorem invertDict_of_nodup_values [DecidableEq γ] (m : List (α × γ))
    (hnd : (m.map Prod.snd).Nodup) : invertDict m = m.map (fun p => (p.2, p.1)) := by
  rw [invertDict_eq_pyDictOf]
  apply pyDictOf_of_nodup
  rw [List.map_map]
  exact hnd

/-! ### popAssign / popLast / mapping characterization -/

theorem popAssign_length (l : List α) (mk : Nat → γ) : (popAssign l mk).length = l.length := by
  unfold popAssign
  rw [List.length_map, List.length_zip, List.length_reverse, List.length_range]
  exact Nat.min_self _

theorem popAssign_keys (l : List α) (mk : Nat → γ) :
    (popAssign l mk).map Prod.fst = l := by
  unfold popAssign
  rw [List.map_map]
  show (l.zip (List.range l.length).reverse).map Prod.fst = l
  exact List.map_fst_zip _ _ (by rw [List.length_reverse, List.length_range])

theorem popAssign_getElem (l : List α) (mk : Nat → γ) (k : Nat)
    (h : k < (popAssign l mk).length) :
    (popAssign l mk)[k] = (l.get ⟨k, by rw [popAssign_length] at h; exact h⟩,
      mk (l.length - 1 - k)) := by
  have hk : k < l.length := by rw [popAssign_length] at h; exact h
  unfold popAssign
  rw [List.getElem_map, List.getElem_zip, List.getElem_reverse, List.getElem_range]
  simp [List.length_range]

theorem popAssign_mem (l : List α) (mk : Nat → γ) (q : α × γ) (h : q ∈ popAssign l mk) :
    q.1 ∈ l ∧ ∃ i, q.2 = mk i := by
  unfold popAssign at h
  rcases List.mem_map.mp h with ⟨p, hp, hq⟩
  have := List.of_mem_zip hp
  exact ⟨hq ▸ this.1, ⟨p.2, by rw [← hq]⟩⟩

theorem lastVal_popAssign (l : List α) [DecidableEq α] (mk : Nat → γ) (hnd : l.Nodup)
    (k : Nat) (h : k < l.length) :
    lastVal (popAssign l mk) (l[k]) = some (mk (l.length - 1 - k)) := by
  have hlen : k < (popAssign l mk).length := by rw [popAssign_length]; exact h
  apply lastVal_of_nodup
  · rw [popAssign_keys]; exact hnd
  · have := List.getElem_mem hlen
    rw [popAssign_getElem l mk k hlen] at this
    exact this

theorem lastVal_popAssign_not_mem (l : List α) [DecidableEq α] (mk : Nat → γ) (a : α)
    (h : a ∉ l) : lastVal (popAssign l mk) a = none := by
  rw [lastVal_eq_none, keyMem_iff_mem_keys, popAssign_keys]
  exact h

theorem popLast_append_single (l : List Nat) (x : Nat) :
    popLast (l ++ [x]) = some (x, l) := by
  induction l with
  | nil => rfl
  | cons y ys ih =>
    cases hys : ys ++ [x] with
    | nil => exact absurd hys (by simp)
    | cons z zs =>
      have hstep : popLast ((y :: ys) ++ [x]) = popLast (y :: z :: zs) := by
        rw [List.cons_append, hys]
      rw [hstep]
      show (popLast (z :: zs)).map (fun p => (p.1, y :: p.2)) = some (x, y :: ys)
      rw [← hys, ih]
      rfl

theorem popLast_range_succ (m : Nat) :
    popLast (List.range (m + 1)) = some (m, List.range m) := by
  rw [List.range_succ]
  exact popLast_append_single _ m

theorem reverse_range_succ (m : Nat) :
    (List.range (m + 1)).reverse = m :: (List.range m).reverse := by
  rw [List.range_succ, List.reverse_append]
  rfl

/-- `mapping0` of a duplicate-free node list is the plain identity
association list. -/
theorem mapping0_of_nodup [DecidableEq α] (g : NxGraph α) (hnd : g.nodes.Nodup) :
    mapping0 g = g.nodes.map (fun a => (a, FGNode.orig a)) := by
  unfold mapping0
  apply pyDictOf_of_nodup
  rw [List.map_map]
  show (List.map id g.nodes).Nodup
  rw [List.map_id]
  exact hnd

theorem mapping0_keyMem [DecidableEq α] (g : NxGraph α) (a : α) :
    keyMem (mapping0 g) a ↔ a ∈ g.nodes := by
  unfold mapping0
  rw [keyMem_pyDictOf]
  unfold keyMem
  constructor
  · rintro ⟨p, hp, hk⟩
    rcases List.mem_map.mp hp with ⟨x, hx, hpx⟩
    rw [← hk, ← hpx]
    exact hx
  · intro h
    exact ⟨(a, FGNode.orig a), List.mem_map.mpr ⟨a, h, rfl⟩, rfl⟩

theorem mapping0_value [DecidableEq α] (g : NxGraph α) (p : α × FGNode α)
    (h : p ∈ mapping0 g) : p.2 = FGNode.orig p.1 ∧ p.1 ∈ g.nodes := by
  have hm := mem_pyDictOf _ _ h
  rcases List.mem_map.mp hm with ⟨x, hx, hpx⟩
  constructor
  · rw [← hpx]
  · rw [← hpx]
    exact hx

/-- Pointwise form of the non-bipartite relabelling: the `k`-th node is
replaced by `vnode (N - 1 - k)` (indices run backwards because the code
pops prepared instances off the end of `obj_box`). -/
theorem mapApply_nonbip [DecidableEq α] (g : NxGraph α) (hnd : g.nodes.Nodup) (k : Nat)
    (h : k < g.nodes.length) :
    mapApply (nonbip_mapping g) (g.nodes[k]) = FGNode.vnode (g.nodes.length - 1 - k) := by
  unfold mapApply nonbip_mapping
  rw [dictGetD_updates, lastVal_popAssign g.nodes FGNode.vnode hnd k h]
  rfl

/-- List form of the non-bipartite relabelling: the images of the nodes,
in iteration order, are `vnode (N-1), ..., vnode 0`. -/
theorem map_nonbip [DecidableEq α] (g : NxGraph α) (hnd : g.nodes.Nodup) :
    g.nodes.map (mapApply (nonbip_mapping g))
      = (List.range g.nodes.length).reverse.map FGNode.vnode := by
  apply List.ext_getElem
  · rw [List.length_map, List.length_map, List.length_reverse, List.length_range]
  · intro k h1 h2
    rw [List.getElem_map, List.getElem_map, List.getElem_reverse, List.getElem_range,
      List.length_range]
    rw [List.length_map] at h1
    exact mapApply_nonbip g hnd k h1

/-! ### Bipartite filters and mapping -/

theorem bipFilter_error (bip : α → Option Nat) (t : Nat) (l : List α)
    (h : ∃ n ∈ l, bip n = none) : bipFilter bip t l = .error (.keyError "bipartite") := by
  induction l with
  | nil => simp at h
  | cons n rest ih =>
    unfold bipFilter
    cases hb : bip n with
    | none => rfl
    | some b =>
      rcases h with ⟨n', hn', hmiss⟩
      rcases List.mem_cons.mp hn' with h' | h'
      · rw [h', hb] at hmiss; exact Option.noConfusion hmiss
      · rw [ih ⟨n', h', hmiss⟩]
        rfl

theorem bipFilter_ok (bip : α → Option Nat) (t : Nat) (l : List α)
    (h : ∀ n ∈ l, (bip n).isSome) :
    bipFilter bip t l = .ok (l.filter (fun n => decide (bip n = some t))) := by
  induction l with
  | nil => rfl
  | cons n rest ih =>
    unfold bipFilter
    cases hb : bip n with
    | none =>
      have := h n (List.mem_cons_self n rest)
      rw [hb] at this
      exact absurd this (by simp)
    | some b =>
      rw [ih (fun x hx => h x (List.mem_cons_of_mem n hx))]
      by_cases hbt : b = t
      · simp [hbt, List.filter_cons, hb, Except.map]
      · simp [hbt, List.filter_cons, hb, Except.map]

theorem mem_vnList [DecidableEq α] (g : NxGraph α) (a : α) :
    a ∈ vnList g ↔ a ∈ g.nodes ∧ g.bipartite a = some 0 := by
  unfold vnList
  rw [List.mem_filter]
  simp

theorem mem_fnList [DecidableEq α] (g : NxGraph α) (a : α) :
    a ∈ fnList g ↔ a ∈ g.nodes ∧ g.bipartite a = some 1 := by
  unfold fnList
  rw [List.mem_filter]
  simp

theorem vnList_nodup [DecidableEq α] (g : NxGraph α) (hnd : g.nodes.Nodup) :
    (vnList g).Nodup := List.Nodup.filter _ hnd

theorem fnList_nodup [DecidableEq α] (g : NxGraph α) (hnd : g.nodes.Nodup) :
    (fnList g).Nodup := List.Nodup.filter _ hnd

theorem bip_mapping_ok [DecidableEq α] (g : NxGraph α)
    (h : ∀ n ∈ g.nodes, (g.bipartite n).isSome) :
    bip_mapping g = .ok (bipDict g) := by
  unfold bip_mapping bipDict
  rw [bipFilter_ok g.bipartite 0 g.nodes h, bipFilter_ok g.bipartite 1 g.nodes h]
  rfl

theorem bip_mapping_error [DecidableEq α] (g : NxGraph α)
    (h : ∃ n ∈ g.nodes, g.bipartite n = none) :
    bip_mapping g = .error (.keyError "bipartite") := by
  unfold bip_mapping
  rw [bipFilter_error g.bipartite 0 g.nodes h]
  rfl

/-- Value of the bipartite dictionary at a `0`-labelled node: the `k`-th
node of the `0`-part is sent to `vnode (|V| - 1 - k)`. -/
theorem mapApply_bipDict_vn [DecidableEq α] (g : NxGraph α) (hnd : g.nodes.Nodup)
    (k : Nat) (h : k < (vnList g).length) :
    mapApply (bipDict g) ((vnList g)[k]) = FGNode.vnode ((vnList g).length - 1 - k) := by
  unfold mapApply bipDict
  rw [dictGetD_updates, dictGetD_updates]
  have ha0 : g.bipartite ((vnList g)[k]) = some 0 :=
    ((mem_vnList g _).mp (List.getElem_mem h)).2
  have hfn : lastVal (popAssign (fnList g) (FGNode.fnode : Nat → FGNode α)) ((vnList g)[k])
      = none := by
    apply lastVal_popAssign_not_mem
    intro hc
    have := ((mem_fnList g _).mp hc).2
    rw [ha0] at this
    simp at this
  rw [hfn, lastVal_popAssign (vnList g) FGNode.vnode (vnList_nodup g hnd) k h]
  rfl

/-- Value of the bipartite dictionary at a `1`-labelled node: the `k`-th
node of the `1`-part is sent to `fnode (|F| - 1 - k)`. -/
theorem mapApply_bipDict_fn [DecidableEq α] (g : NxGraph α) (hnd : g.nodes.Nodup)
    (k : Nat) (h : k < (fnList g).length) :
    mapApply (bipDict g) ((fnList g)[k]) = FGNode.fnode ((fnList g).length - 1 - k) := by
  unfold mapApply bipDict
  rw [dictGetD_updates, dictGetD_updates]
  rw [lastVal_popAssign (fnList g) FGNode.fnode (fnList_nodup g hnd) k h]
  rfl

theorem dictGetD_value_cases [DecidableEq α] (m : List (α × γ)) (a : α) (d : γ) :
    dictGetD m a d = d ∨ ∃ p ∈ m, p.1 = a ∧ p.2 = dictGetD m a d := by
  induction m with
  | nil => exact Or.inl rfl
  | cons p rest ih =>
    rw [dictGetD_cons]
    by_cases hp : p.1 = a
    · rw [if_pos hp]
      exact Or.inr ⟨p, List.mem_cons_self p rest, hp, rfl⟩
    · rw [if_neg hp]
      rcases ih with h | ⟨q, hq, hqa, hqv⟩
      · exact Or.inl h
      · exact Or.inr ⟨q, List.mem_cons_of_mem p hq, hqa, hqv⟩

/-- A node labelled neither `0` nor `1` is left alone by the bipartite
dictionary: it is mapped to itself. -/
theorem mapApply_bipDict_other [DecidableEq α] (g : NxGraph α) (a : α)
    (h0 : g.bipartite a ≠ some 0) (h1 : g.bipartite a ≠ some 1) :
    mapApply (bipDict g) a = FGNode.orig a := by
  unfold mapApply bipDict
  rw [dictGetD_updates, dictGetD_updates]
  have hfn : lastVal (popAssign (fnList g) (FGNode.fnode : Nat → FGNode α)) a = none := by
    apply lastVal_popAssign_not_mem
    intro hc
    exact h1 ((mem_fnList g a).mp hc).2
  have hvn : lastVal (popAssign (vnList g) (FGNode.vnode : Nat → FGNode α)) a = none := by
    apply lastVal_popAssign_not_mem
    intro hc
    exact h0 ((mem_vnList g a).mp hc).2
  rw [hfn, hvn]
  simp only [Option.getD_none]
  rcases dictGetD_value_cases (mapping0 g) a (FGNode.orig a) with h | ⟨p, hp, hpa, hpv⟩
  · exact h
  · rw [← hpv, (mapping0_value g p hp).1, hpa]

/-- Keys of the bipartite dictionary: exactly the input nodes, in order. -/
theorem bipDict_keys [DecidableEq α] (g : NxGraph α) (hnd : g.nodes.Nodup) :
    (bipDict g).map Prod.fst = g.nodes := by
  unfold bipDict
  rw [keys_dictUpdates_of_mem, keys_dictUpdates_of_mem]
  · rw [mapping0_of_nodup g hnd, List.map_map]
    show List.map id g.nodes = g.nodes
    exact List.map_id g.nodes
  · intro q hq
    rw [mapping0_keyMem]
    exact (mem_vnList g q.1).mp ((popAssign_mem _ _ q hq).1) |>.1
  · intro q hq
    rw [keyMem_dictUpdates]
    left
    rw [mapping0_keyMem]
    exact (mem_fnList g q.1).mp ((popAssign_mem _ _ q hq).1) |>.1

theorem bipDict_keys_nodup [DecidableEq α] (g : NxGraph α) :
    ((bipDict g).map Prod.fst).Nodup := by
  unfold bipDict
  apply keys_dictUpdates_nodup
  apply keys_dictUpdates_nodup
  exact keys_pyDictOf_nodup _

/-- Entry form of the bipartite dictionary. -/
theorem bipDict_entries [DecidableEq α] (g : NxGraph α) (hnd : g.nodes.Nodup) :
    bipDict g = g.nodes.map (fun a => (a, mapApply (bipDict g) a)) := by
  have hext := dict_ext (bipDict g) FGNode.orig (bipDict_keys_nodup g)
  rw [bipDict_keys g hnd] at hext
  exact hext

/-! ### Relabelling and node-storage lemmas -/

theorem pyDedupGo_of_nodup [DecidableEq β] (seen : List β) (l : List β)
    (hd : ∀ x ∈ l, x ∉ seen) (hnd : l.Nodup) : pyDedupGo seen l = l := by
  induction l generalizing seen with
  | nil => rfl
  | cons x xs ih =>
    rw [List.nodup_cons] at hnd
    unfold pyDedupGo
    rw [if_neg (hd x (List.mem_cons_self x xs))]
    congr 1
    apply ih
    · intro y hy
      simp only [List.mem_cons]
      push_neg
      exact ⟨fun he => hnd.1 (he ▸ hy), hd y (List.mem_cons_of_mem x hy)⟩
    · exact hnd.2

theorem pyDedup_of_nodup [DecidableEq β] (l : List β) (hnd : l.Nodup) : pyDedup l = l :=
  pyDedupGo_of_nodup [] l (by simp) hnd

theorem mem_pyDedupGo [DecidableEq β] (seen : List β) (l : List β) (x : β) :
    x ∈ pyDedupGo seen l ↔ x ∈ l ∧ x ∉ seen := by
  induction l generalizing seen with
  | nil => simp [pyDedupGo]
  | cons y ys ih =>
    unfold pyDedupGo
    by_cases hy : y ∈ seen
    · rw [if_pos hy, ih]
      constructor
      · rintro ⟨h1, h2⟩
        exact ⟨List.mem_cons_of_mem y h1, h2⟩
      · rintro ⟨h1, h2⟩
        rcases List.mem_cons.mp h1 with h | h
        · exact absurd (h ▸ hy) h2
        · exact ⟨h, h2⟩
    · rw [if_neg hy]
      constructor
      · intro hm
        rcases List.mem_cons.mp hm with h | h
        · subst h
          exact ⟨List.mem_cons_self x ys, hy⟩
        · have hr := (ih (y :: seen)).mp h
          exact ⟨List.mem_cons_of_mem y hr.1, fun hc => hr.2 (List.mem_cons_of_mem y hc)⟩
      · rintro ⟨h1, h2⟩
        rcases List.mem_cons.mp h1 with h | h
        · subst h
          exact List.mem_cons_self x _
        · by_cases hx : x = y
          · subst hx
            exact List.mem_cons_self x _
          · refine List.mem_cons_of_mem y ((ih (y :: seen)).mpr ⟨h, ?_⟩)
            intro hc
            rcases List.mem_cons.mp hc with hc' | hc'
            · exact hx hc'
            · exact h2 hc'

theorem mem_pyDedup [DecidableEq β] (l : List β) (x : β) : x ∈ pyDedup l ↔ x ∈ l := by
  unfold pyDedup
  rw [mem_pyDedupGo]
  simp

theorem foldl_addEdgeDedup_of_pairwise [DecidableEq β] (l : List (β × β))
    (acc : List (β × β)) (hp : l.Pairwise (fun e e' => ¬ sameEdge e e'))
    (hd : ∀ e ∈ l, ∀ e' ∈ acc, ¬ sameEdge e' e) :
    l.foldl addEdgeDedup acc = acc ++ l := by
  induction l generalizing acc with
  | nil => simp
  | cons e rest ih =>
    rw [List.pairwise_cons] at hp
    have hstep : addEdgeDedup acc e = acc ++ [e] := by
      unfold addEdgeDedup
      rw [if_neg]
      rintro ⟨e', he', hsame⟩
      exact hd e (List.mem_cons_self e rest) e' he' hsame
    show rest.foldl addEdgeDedup (addEdgeDedup acc e) = acc ++ e :: rest
    rw [hstep, ih (acc ++ [e]) hp.2 (by
      intro e2 h2 e' he'
      rcases List.mem_append.mp he' with h' | h'
      · exact hd e2 (List.mem_cons_of_mem e h2) e' h'
      · rw [List.mem_singleton.mp h']
        exact hp.1 e2 h2)]
  
    simp

theorem dedupEdges_of_pairwise [DecidableEq β] (l : List (β × β))
    (hp : l.Pairwise (fun e e' => ¬ sameEdge e e')) : dedupEdges l = l := by
  unfold dedupEdges
  rw [foldl_addEdgeDedup_of_pairwise l [] hp (by simp)]
  simp

theorem mem_foldl_addEdgeDedup [DecidableEq β] (l : List (β × β)) (acc : List (β × β))
    (e : β × β) (h : e ∈ l.foldl addEdgeDedup acc) : e ∈ acc ∨ e ∈ l := by
  induction l generalizing acc with
  | nil => exact Or.inl h
  | cons e' rest ih =>
    rcases ih (addEdgeDedup acc e') h with h' | h'
    · unfold addEdgeDedup at h'
      by_cases hc : ∃ e'' ∈ acc, sameEdge e'' e'
      · rw [if_pos hc] at h'
        exact Or.inl h'
      · rw [if_neg hc] at h'
        rcases List.mem_append.mp h' with h'' | h''
        · exact Or.inl h''
        · exact Or.inr (List.mem_singleton.mp h'' ▸ List.mem_cons_self e' rest)
    · exact Or.inr (List.mem_cons_of_mem e' h')

theorem mem_dedupEdges [DecidableEq β] (l : List (β × β)) (e : β × β)
    (h : e ∈ dedupEdges l) : e ∈ l := by
  rcases mem_foldl_addEdgeDedup l [] e h with h' | h'
  · simp at h'
  · exact h'

/-- Generic lemma about the in-place update `l.map (fun p => if p.1 = n
then (n, f p.2) else p)`: lookup at a different key is unchanged. -/
theorem lookup_mapReplace_ne [DecidableEq β] (l : List (β × NodeData ω)) (n : β)
    (f : NodeData ω → NodeData ω) (x : β) (hx : x ≠ n) :
    lookupNode (l.map (fun p => if p.1 = n then (n, f p.2) else p)) x = lookupNode l x := by
  induction l with
  | nil => rfl
  | cons p rest ih =>
    rw [List.map_cons, lookupNode_cons, lookupNode_cons]
    by_cases hp : p.1 = n
    · have hhead : (if p.1 = n then (n, f p.2) else p) = (n, f p.2) := if_pos hp
      rw [hhead]
      have h1 : ((n, f p.2) : β × NodeData ω).1 = n := rfl
      rw [if_neg (fun hc : (n, f p.2).1 = x => hx (h1 ▸ hc).symm),
        if_neg (fun hc : p.1 = x => hx (hp ▸ hc).symm)]
      exact ih
    · have hhead : (if p.1 = n then (n, f p.2) else p) = p := if_neg hp
      rw [hhead]
      by_cases hpx : p.1 = x
      · rw [if_pos hpx, if_pos hpx]
      · rw [if_neg hpx, if_neg hpx]
        exact ih

/-- Generic lemma about the in-place update: lookup at the updated key
returns the updated record. -/
theorem lookup_mapReplace_self [DecidableEq β] (l : List (β × NodeData ω)) (n : β)
    (f : NodeData ω → NodeData ω) (d : NodeData ω) (h : lookupNode l n = some d) :
    lookupNode (l.map (fun p => if p.1 = n then (n, f p.2) else p)) n = some (f d) := by
  induction l with
  | nil => simp [lookupNode_nil] at h
  | cons p rest ih =>
    rw [lookupNode_cons] at h
    rw [List.map_cons, lookupNode_cons]
    by_cases hp : p.1 = n
    · rw [if_pos hp] at h
      have hhead : (if p.1 = n then (n, f p.2) else p) = (n, f p.2) := if_pos hp
      rw [hhead, if_pos rfl, Option.some.inj h]
    · rw [if_neg hp] at h
      have hhead : (if p.1 = n then (n, f p.2) else p) = p := if_neg hp
      rw [hhead, if_neg hp]
      exact ih h

theorem keys_mapReplace [DecidableEq β] (l : List (β × NodeData ω)) (n : β)
    (f : NodeData ω → NodeData ω) (h : keyMem l n) :
    (l.map (fun p => if p.1 = n then (n, f p.2) else p)).map Prod.fst = l.map Prod.fst := by
  rw [List.map_map]
  apply List.map_congr_left
  intro p _
  by_cases hp : p.1 = n <;> simp [hp]

theorem insertTyped_of_not_mem [DecidableEq β] (l : List (β × NodeData ω)) (n : β)
    (t : NodeType) (ats : List (String × String)) (h : ¬ keyMem l n) :
    insertTyped l n t ats
      = l ++ [(n, { type := some t, origin := none, extra := pyDictOf ats })] := by
  unfold insertTyped
  rw [if_neg h]

theorem insertTyped_of_mem [DecidableEq β] (l : List (β × NodeData ω)) (n : β)
    (t : NodeType) (ats : List (String × String)) (h : keyMem l n) :
    insertTyped l n t ats = l.map (fun p => if p.1 = n then
      (n, { type := some t, origin := p.2.origin, extra := dictUpdates p.2.extra ats })
      else p) := by
  unfold insertTyped
  rw [if_pos h]

theorem keys_insertTyped_of_mem [DecidableEq β] (l : List (β × NodeData ω)) (n : β)
    (t : NodeType) (ats : List (String × String)) (h : keyMem l n) :
    (insertTyped l n t ats).map Prod.fst = l.map Prod.fst := by
  rw [insertTyped_of_mem l n t ats h]
  exact keys_mapReplace l n
    (fun d => { type := some t, origin := d.origin, extra := dictUpdates d.extra ats }) h

theorem length_insertTyped_of_mem [DecidableEq β] (l : List (β × NodeData ω)) (n : β)
    (t : NodeType) (ats : List (String × String)) (h : keyMem l n) :
    (insertTyped l n t ats).length = l.length := by
  rw [insertTyped_of_mem l n t ats h, List.length_map]

theorem keyMem_insertTyped [DecidableEq β] (l : List (β × NodeData ω)) (n : β)
    (t : NodeType) (ats : List (String × String)) (x : β) :
    keyMem (insertTyped l n t ats) x ↔ keyMem l x ∨ x = n := by
  by_cases h : keyMem l n
  · rw [keyMem_iff_mem_keys, keys_insertTyped_of_mem l n t ats h, ← keyMem_iff_mem_keys]
    constructor
    · exact Or.inl
    · rintro (hx | hx)
      · exact hx
      · exact hx ▸ h
  · rw [insertTyped_of_not_mem l n t ats h, keyMem_append, keyMem_cons]
    simp [keyMem_nil]
    tauto

theorem lookup_insertTyped_self_of_mem [DecidableEq β] (l : List (β × NodeData ω)) (n : β)
    (t : NodeType) (ats : List (String × String)) (d : NodeData ω)
    (h : lookupNode l n = some d) :
    lookupNode (insertTyped l n t ats) n
      = some { type := some t, origin := d.origin, extra := dictUpdates d.extra ats } := by
  have hmem : keyMem l n := by
    rw [← lookupNode_isSome, h]
    rfl
  rw [insertTyped_of_mem l n t ats hmem]
  exact lookup_mapReplace_self l n
    (fun d => { type := some t, origin := d.origin, extra := dictUpdates d.extra ats }) d h

theorem lookup_insertTyped_self_of_not_mem [DecidableEq β] (l : List (β × NodeData ω))
    (n : β) (t : NodeType) (ats : List (String × String)) (h : ¬ keyMem l n) :
    lookupNode (insertTyped l n t ats) n
      = some { type := some t, origin := none, extra := pyDictOf ats } := by
  rw [insertTyped_of_not_mem l n t ats h]
  rw [lookupNode_append_right _ _ _ ((lookupNode_eq_none l n).mpr h), lookupNode_cons]
  simp

theorem lookup_insertTyped_ne [DecidableEq β] (l : List (β × NodeData ω)) (n : β)
    (t : NodeType) (ats : List (String × String)) (x : β) (hx : x ≠ n) :
    lookupNode (insertTyped l n t ats) x = lookupNode l x := by
  by_cases h : keyMem l n
  · rw [insertTyped_of_mem l n t ats h]
    exact lookup_mapReplace_ne l n
      (fun d => { type := some t, origin := d.origin, extra := dictUpdates d.extra ats }) x hx
  · rw [insertTyped_of_not_mem l n t ats h]
    cases hl : lookupNode l x with
    | some d => exact lookupNode_append_left l _ x d hl
    | none =>
      rw [lookupNode_append_right l _ x hl, lookupNode_cons]
      rw [if_neg (fun hc : n = x => hx hc.symm)]
      rfl

theorem ensureNode_of_mem [DecidableEq β] (l : List (β × NodeData ω)) (n : β)
    (h : keyMem l n) : ensureNode l n = l := by
  unfold ensureNode
  rw [if_pos h]

theorem keyMem_ensureNode [DecidableEq β] (l : List (β × NodeData ω)) (n : β) (x : β) :
    keyMem (ensureNode l n) x ↔ keyMem l x ∨ x = n := by
  unfold ensureNode
  by_cases h : keyMem l n
  · rw [if_pos h]
    constructor
    · exact Or.inl
    · rintro (hx | hx)
      · exact hx
      · exact hx ▸ h
  · rw [if_neg h, keyMem_append, keyMem_cons]
    simp [keyMem_nil]
    tauto

theorem lookup_ensureNode_self_of_not_mem [DecidableEq β] (l : List (β × NodeData ω))
    (n : β) (h : ¬ keyMem l n) :
    lookupNode (ensureNode l n) n = some { type := none, origin := none, extra := [] } := by
  unfold ensureNode
  rw [if_neg h, lookupNode_append_right _ _ _ ((lookupNode_eq_none l n).mpr h), lookupNode_cons]
  simp

theorem lookup_ensureNode_of_found [DecidableEq β] (l : List (β × NodeData ω)) (n x : β)
    (d : NodeData ω) (h : lookupNode l x = some d) :
    lookupNode (ensureNode l n) x = some d := by
  unfold ensureNode
  by_cases hm : keyMem l n
  · rw [if_pos hm]; exact h
  · rw [if_neg hm]
    exact lookupNode_append_left l _ x d h

/-! ### FactorGraph operation lemmas -/

theorem set_node_eq_ok [DecidableEq β] (ty : β → Option NodeType) (g : FactorGraph β ω)
    (n : β) (ats : List (String × String)) (t : NodeType) (h : ty n = some t) :
    g.set_node ty n ats = .ok { nodes := insertTyped g.nodes n t ats,
                                edges := g.edges, owned := g.owned ++ [n] } := by
  unfold FactorGraph.set_node
  rw [h]

theorem set_nodes_spec [DecidableEq β] (ty : β → Option NodeType) (g : FactorGraph β ω)
    (l : List β) (hty : ∀ n ∈ l, (ty n).isSome) (hfresh : ∀ n ∈ l, ¬ keyMem g.nodes n)
    (hnd : l.Nodup) :
    g.set_nodes ty l = .ok { nodes := g.nodes ++ l.map (fun n =>
                               (n, { type := ty n, origin := none, extra := [] })),
                             edges := g.edges, owned := g.owned ++ l } := by
  induction l generalizing g with
  | nil =>
    show Except.ok g = _
    simp
  | cons n rest ih =>
    rw [List.nodup_cons] at hnd
    rcases Option.isSome_iff_exists.mp (hty n (List.mem_cons_self n rest)) with ⟨t, ht⟩
    show (match g.set_node ty n [] with
      | Except.error e => Except.error e
      | Except.ok g' => FactorGraph.set_nodes ty g' rest) = _
    rw [set_node_eq_ok ty g n [] t ht]
    have hfr : ¬ keyMem g.nodes n := hfresh n (List.mem_cons_self n rest)
    rw [insertTyped_of_not_mem g.nodes n t [] hfr]
    simp only []
    rw [ih _ (fun x hx => hty x (List.mem_cons_of_mem n hx)) ?_ hnd.2]
    · simp only [List.append_assoc, List.singleton_append, List.map_cons]
      rw [ht]
      rfl
    · intro x hx
      simp only []
      rw [keyMem_append]
      push_neg
      constructor
      · exact hfresh x (List.mem_cons_of_mem n hx)
      · rw [keyMem_cons]
        push_neg
        constructor
        · intro he
          have he' : n = x := he
          exact hnd.1 (he' ▸ hx)
        · exact keyMem_nil x

theorem set_nodes_parts [DecidableEq β] (ty : β → Option NodeType) :
    ∀ (l : List β) (g g' : FactorGraph β ω), g.set_nodes ty l = .ok g' →
    g'.edges = g.edges ∧ (∀ x, keyMem g.nodes x → keyMem g'.nodes x)
      ∧ (∀ n ∈ l, keyMem g'.nodes n) := by
  intro l
  induction l with
  | nil =>
    intro g g' h
    have : g = g' := by
      have : Except.ok g = Except.ok g' := h
      exact Except.ok.inj this
    subst this
    exact ⟨rfl, fun x hx => hx, by simp⟩
  | cons n rest ih =>
    intro g g' h
    have hstep : g.set_nodes ty (n :: rest) = (match g.set_node ty n [] with
      | .error e => .error e
      | .ok g1 => g1.set_nodes ty rest) := rfl
    rw [hstep] at h
    cases hn : g.set_node ty n [] with
    | error e => rw [hn] at h; exact Except.noConfusion h
    | ok g1 =>
      rw [hn] at h
      rcases ih g1 g' h with ⟨he, hmono, hmem⟩
      unfold FactorGraph.set_node at hn
      cases ht : ty n with
      | none => rw [ht] at hn; exact Except.noConfusion hn
      | some t =>
        rw [ht] at hn
        have hg1 := Except.ok.inj hn
        have hg1n : g1.nodes = insertTyped g.nodes n t [] := by rw [← hg1]
        have hg1e : g1.edges = g.edges := by rw [← hg1]
        refine ⟨he.trans hg1e, ?_, ?_⟩
        · intro x hx
          apply hmono
          rw [hg1n, keyMem_insertTyped]
          exact Or.inl hx
        · intro m hm
          rcases List.mem_cons.mp hm with hq | hq
          · apply hmono
            rw [hg1n, keyMem_insertTyped]
            exact Or.inr hq
          · exact hmem m hq

theorem set_edge_of_mem [DecidableEq β] (g : FactorGraph β ω) (s t : β)
    (hs : keyMem g.nodes s) (ht : keyMem g.nodes t) :
    g.set_edge s t = { nodes := g.nodes,
                       edges := (if ∃ e ∈ g.edges, sameEdge e (s, t) then g.edges
                                 else g.edges ++ [(s, t)]),
                       owned := g.owned } := by
  unfold FactorGraph.set_edge
  rw [ensureNode_of_mem g.nodes s hs, ensureNode_of_mem g.nodes t ht]

theorem set_edge_fresh [DecidableEq β] (g : FactorGraph β ω) (s t : β)
    (hs : keyMem g.nodes s) (ht : keyMem g.nodes t)
    (hf : ¬ ∃ e ∈ g.edges, sameEdge e (s, t)) :
    g.set_edge s t = { nodes := g.nodes, edges := g.edges ++ [(s, t)],
                       owned := g.owned } := by
  rw [set_edge_of_mem g s t hs ht, if_neg hf]

theorem set_edges_parts [DecidableEq β] :
    ∀ (es : List (β × β)) (g : FactorGraph β ω),
    (∀ e ∈ es, keyMem g.nodes e.1 ∧ keyMem g.nodes e.2) →
    (g.set_edges es).nodes = g.nodes ∧ (g.set_edges es).owned = g.owned
      ∧ ∀ e' ∈ (g.set_edges es).edges, e' ∈ g.edges ∨ e' ∈ es := by
  intro es
  induction es with
  | nil => exact fun g _ => ⟨rfl, rfl, fun e' h' => Or.inl h'⟩
  | cons e rest ih =>
    intro g hm
    have hstep : g.set_edges (e :: rest) = (g.set_edge e.1 e.2).set_edges rest := rfl
    have h1 := set_edge_of_mem g e.1 e.2 (hm e (List.mem_cons_self e rest)).1
      (hm e (List.mem_cons_self e rest)).2
    have hrec := ih (g.set_edge e.1 e.2) (by
      intro e2 h2
      rw [h1]
      exact hm e2 (List.mem_cons_of_mem e h2))
    rw [hstep]
    refine ⟨hrec.1.trans (by rw [h1]), hrec.2.1.trans (by rw [h1]), ?_⟩
    intro e' he'
    rcases hrec.2.2 e' he' with h' | h'
    · rw [h1] at h'
      simp only [] at h'
      by_cases hc : ∃ e0 ∈ g.edges, sameEdge e0 (e.1, e.2)
      · rw [if_pos hc] at h'
        exact Or.inl h'
      · rw [if_neg hc] at h'
        rcases List.mem_append.mp h' with h'' | h''
        · exact Or.inl h''
        · right
          rw [List.mem_singleton.mp h'']
          exact List.mem_cons_self e rest
    · exact Or.inr (List.mem_cons_of_mem e h')

theorem typedNodes_ok [DecidableEq β] (t : NodeType) (l : List (β × NodeData ω))
    (h : ∀ p ∈ l, (p.2.type).isSome) :
    typedNodes t l = .ok ((l.filter (fun p => decide (p.2.type = some t))).map Prod.fst) := by
  induction l with
  | nil => rfl
  | cons p rest ih =>
    have hstep : typedNodes t (p :: rest) = (match p.2.type with
      | none => .error (.keyError "type")
      | some tn => (typedNodes t rest).map (fun r => if tn = t then p.1 :: r else r)) := rfl
    rw [hstep]
    cases hp : p.2.type with
    | none =>
      have := h p (List.mem_cons_self p rest)
      rw [hp] at this
      exact absurd this (by simp)
    | some tn =>
      rw [ih (fun q hq => h q (List.mem_cons_of_mem p hq))]
      by_cases htn : tn = t
      · simp [Except.map, List.filter_cons, hp, htn]
      · simp [Except.map, List.filter_cons, hp, htn]

theorem typedNodes_error [DecidableEq β] (t : NodeType) (l : List (β × NodeData ω))
    (h : ∃ p ∈ l, p.2.type = none) :
    typedNodes t l = .error (.keyError "type") := by
  induction l with
  | nil => simp at h
  | cons p rest ih =>
    have hstep : typedNodes t (p :: rest) = (match p.2.type with
      | none => .error (.keyError "type")
      | some tn => (typedNodes t rest).map (fun r => if tn = t then p.1 :: r else r)) := rfl
    rw [hstep]
    cases hp : p.2.type with
    | none => rfl
    | some tn =>
      rcases h with ⟨q, hq, hq2⟩
      rcases List.mem_cons.mp hq with h' | h'
      · rw [h', hp] at hq2
        exact Option.noConfusion hq2
      · rw [ih ⟨q, h', hq2⟩]
        rfl

theorem keys_setOriginOne [DecidableEq β] (l : List (β × NodeData ω)) (n : β) (w : ω) :
    (setOriginOne l n w).map Prod.fst = l.map Prod.fst := by
  unfold setOriginOne
  rw [List.map_map]
  apply List.map_congr_left
  intro p _
  by_cases hp : p.1 = n <;> simp [hp]

theorem typesMap_setOriginOne [DecidableEq β] (l : List (β × NodeData ω)) (n : β) (w : ω) :
    (setOriginOne l n w).map (fun p => (p.1, p.2.type))
      = l.map (fun p => (p.1, p.2.type)) := by
  unfold setOriginOne
  rw [List.map_map]
  apply List.map_congr_left
  intro p _
  by_cases hp : p.1 = n <;> simp [hp]

theorem lookup_setOriginOne_self [DecidableEq β] (l : List (β × NodeData ω)) (n : β)
    (w : ω) : lookupNode (setOriginOne l n w) n
      = (lookupNode l n).map (fun d => { d with origin := some w }) := by
  induction l with
  | nil => rfl
  | cons p rest ih =>
    unfold setOriginOne at ih ⊢
    rw [List.map_cons, lookupNode_cons, lookupNode_cons]
    by_cases hp : p.1 = n
    · have hhead : (if p.1 = n then (p.1, { p.2 with origin := some w }) else p)
          = (p.1, { p.2 with origin := some w }) := if_pos hp
      rw [hhead]
      simp only [hp, if_pos rfl]
      rfl
    · have hhead : (if p.1 = n then (p.1, { p.2 with origin := some w }) else p) = p :=
        if_neg hp
      rw [hhead, if_neg hp, if_neg hp]
      exact ih

theorem lookup_setOriginOne_ne [DecidableEq β] (l : List (β × NodeData ω)) (n : β)
    (w : ω) (x : β) (hx : x ≠ n) :
    lookupNode (setOriginOne l n w) x = lookupNode l x := by
  induction l with
  | nil => rfl
  | cons p rest ih =>
    unfold setOriginOne at ih ⊢
    rw [List.map_cons, lookupNode_cons, lookupNode_cons]
    by_cases hp : p.1 = n
    · have hhead : (if p.1 = n then (p.1, { p.2 with origin := some w }) else p)
          = (p.1, { p.2 with origin := some w }) := if_pos hp
      rw [hhead]
      have hne : p.1 ≠ x := fun he => hx ((hp ▸ he : n = x)).symm
      simp only [if_neg hne]
      exact ih
    · have hhead : (if p.1 = n then (p.1, { p.2 with origin := some w }) else p) = p :=
        if_neg hp
      rw [hhead]
      by_cases hpx : p.1 = x
      · rw [if_pos hpx, if_pos hpx]
      · rw [if_neg hpx, if_neg hpx]
        exact ih

theorem applyOrigins_nil [DecidableEq β] (l : List (β × NodeData ω)) :
    applyOrigins ([] : List (β × ω)) l = l := by
  unfold applyOrigins
  have hpt : ∀ p ∈ l, (match lastVal ([] : List (β × ω)) p.1 with
      | some w => (p.1, { p.2 with origin := some w })
      | none => p) = p := by
    intro p _
    rfl
  rw [List.map_congr_left hpt]
  exact List.map_id l

theorem applyOrigins_fun_step [DecidableEq β] (n : β) (w : ω) (ps : List (β × ω))
    (hnd : ¬ keyMem ps n) (p : β × NodeData ω) :
    (match lastVal ps (if p.1 = n then
        ((p.1, { p.2 with origin := some w }) : β × NodeData ω) else p).1 with
      | some v => ((if p.1 = n then
          ((p.1, { p.2 with origin := some w }) : β × NodeData ω) else p).1,
        { (if p.1 = n then
          ((p.1, { p.2 with origin := some w }) : β × NodeData ω) else p).2 with
            origin := some v })
      | none => (if p.1 = n then
          ((p.1, { p.2 with origin := some w }) : β × NodeData ω) else p))
    = (match lastVal ((n, w) :: ps) p.1 with
      | some v => (p.1, { p.2 with origin := some v })
      | none => p) := by
  have hnone : lastVal ps n = none := by
    rw [lastVal_eq_none]
    exact hnd
  by_cases hp : p.1 = n
  · simp only [if_pos hp]
    have h1 : lastVal ps (((p.1, { p.2 with origin := some w }) : β × NodeData ω)).1
        = none := by
      show lastVal ps p.1 = none
      rw [hp]
      exact hnone
    have h2 : lastVal ((n, w) :: ps) p.1 = some w := by
      rw [lastVal_cons, hp, hnone]
      simp
    simp only [h1, h2]
  · simp only [if_neg hp]
    have h2 : lastVal ((n, w) :: ps) p.1 = lastVal ps p.1 := by
      rw [lastVal_cons]
      cases hr : lastVal ps p.1 with
      | some v => rfl
      | none => rw [if_neg (fun hc : n = p.1 => hp hc.symm)]
    rw [h2]

theorem applyOrigins_cons [DecidableEq β] (n : β) (w : ω) (ps : List (β × ω))
    (l : List (β × NodeData ω)) (hnd : ¬ keyMem ps n) :
    applyOrigins ps (setOriginOne l n w) = applyOrigins ((n, w) :: ps) l := by
  unfold applyOrigins setOriginOne
  rw [List.map_map]
  apply List.map_congr_left
  intro p _
  exact applyOrigins_fun_step n w ps hnd p

theorem setOriginAll_spec [DecidableEq β] :
    ∀ (ps : List (β × ω)) (g : FactorGraph β ω),
    (ps.map Prod.fst).Nodup → (∀ q ∈ ps, keyMem g.nodes q.1) →
    setOriginAll g ps = .ok { nodes := applyOrigins ps g.nodes,
                              edges := g.edges, owned := g.owned } := by
  intro ps
  induction ps with
  | nil =>
    intro g _ _
    show Except.ok g = _
    rw [applyOrigins_nil]
  | cons q rest ih =>
    intro g hnd hmem
    rcases q with ⟨n, w⟩
    simp only [List.map_cons, List.nodup_cons] at hnd
    have hnk : ¬ keyMem rest n := by
      intro hc
      rcases hc with ⟨q1, hq1, hq2⟩
      exact hnd.1 (hq2 ▸ List.mem_map.mpr ⟨q1, hq1, rfl⟩)
    have hmem2 : ∀ q1 ∈ rest, keyMem (setOriginOne g.nodes n w) q1.1 := by
      intro q1 hq1
      rw [keyMem_iff_mem_keys, keys_setOriginOne, ← keyMem_iff_mem_keys]
      exact hmem q1 (List.mem_cons_of_mem _ hq1)
    show (if keyMem g.nodes n then
        setOriginAll { nodes := setOriginOne g.nodes n w, edges := g.edges,
                       owned := g.owned } rest
      else Except.error (PyErr.keyError "origin")) = _
    rw [if_pos (hmem (n, w) (List.mem_cons_self _ rest))]
    rw [ih { nodes := setOriginOne g.nodes n w, edges := g.edges, owned := g.owned }
      hnd.2 hmem2]
    show Except.ok ({ nodes := applyOrigins rest (setOriginOne g.nodes n w),
                      edges := g.edges, owned := g.owned } : FactorGraph β ω) = _
    rw [applyOrigins_cons n w rest g.nodes hnk]

theorem setOriginAll_parts [DecidableEq β] :
    ∀ (ps : List (β × ω)) (g fg : FactorGraph β ω), setOriginAll g ps = .ok fg →
    fg.edges = g.edges ∧ fg.owned = g.owned ∧
      fg.nodes.map (fun p => (p.1, p.2.type)) = g.nodes.map (fun p => (p.1, p.2.type)) := by
  intro ps
  induction ps with
  | nil =>
    intro g fg h
    have : g = fg := Except.ok.inj h
    subst this
    exact ⟨rfl, rfl, rfl⟩
  | cons q rest ih =>
    intro g fg h
    rcases q with ⟨n, w⟩
    have hstep : setOriginAll g ((n, w) :: rest) = (if keyMem g.nodes n then
        setOriginAll { nodes := setOriginOne g.nodes n w, edges := g.edges,
                       owned := g.owned } rest
      else Except.error (PyErr.keyError "origin")) := rfl
    rw [hstep] at h
    by_cases hm : keyMem g.nodes n
    · rw [if_pos hm] at h
      rcases ih _ fg h with ⟨he, ho, ht⟩
      exact ⟨he, ho, ht.trans (typesMap_setOriginOne g.nodes n w)⟩
    · rw [if_neg hm] at h
      exact Except.noConfusion h

theorem setOriginAll_lookup_of_not_mem [DecidableEq β] :
    ∀ (ps : List (β × ω)) (g fg : FactorGraph β ω) (n : β), setOriginAll g ps = .ok fg →
    ¬ keyMem ps n → lookupNode fg.nodes n = lookupNode g.nodes n := by
  intro ps
  induction ps with
  | nil =>
    intro g fg n h _
    have : g = fg := Except.ok.inj h
    subst this
    rfl
  | cons q rest ih =>
    intro g fg n h hnm
    rcases q with ⟨n0, w0⟩
    have hstep : setOriginAll g ((n0, w0) :: rest) = (if keyMem g.nodes n0 then
        setOriginAll { nodes := setOriginOne g.nodes n0 w0, edges := g.edges,
                       owned := g.owned } rest
      else Except.error (PyErr.keyError "origin")) := rfl
    rw [hstep] at h
    by_cases hm : keyMem g.nodes n0
    · rw [if_pos hm] at h
      rw [keyMem_cons] at hnm
      push_neg at hnm
      rw [ih _ fg n h hnm.2]
      show lookupNode (setOriginOne g.nodes n0 w0) n = lookupNode g.nodes n
      exact lookup_setOriginOne_ne g.nodes n0 w0 n (fun hc => hnm.1 hc.symm)
    · rw [if_neg hm] at h
      exact Except.noConfusion h

theorem setOriginAll_lookup_of_mem [DecidableEq β] :
    ∀ (ps : List (β × ω)) (g fg : FactorGraph β ω) (n : β) (w : ω),
    setOriginAll g ps = .ok fg → (ps.map Prod.fst).Nodup → (n, w) ∈ ps →
    lookupNode fg.nodes n = (lookupNode g.nodes n).map (fun d => { d with origin := some w }) := by
  intro ps
  induction ps with
  | nil =>
    intro g fg n w _ _ hm
    simp at hm
  | cons q rest ih =>
    intro g fg n w h hnd hm
    rcases q with ⟨n0, w0⟩
    simp only [List.map_cons, List.nodup_cons] at hnd
    have hstep : setOriginAll g ((n0, w0) :: rest) = (if keyMem g.nodes n0 then
        setOriginAll { nodes := setOriginOne g.nodes n0 w0, edges := g.edges,
                       owned := g.owned } rest
      else Except.error (PyErr.keyError "origin")) := rfl
    rw [hstep] at h
    by_cases hkm : keyMem g.nodes n0
    · rw [if_pos hkm] at h
      rcases List.mem_cons.mp hm with h' | h'
      · have hn : n = n0 := congrArg Prod.fst h'
        have hw : w = w0 := congrArg Prod.snd h'
        subst hn
        subst hw
        have hrest : ¬ keyMem rest n := by
          intro hc
          rcases hc with ⟨q', hq', hq1⟩
          exact hnd.1 (hq1 ▸ List.mem_map.mpr ⟨q', hq', rfl⟩)
        rw [setOriginAll_lookup_of_not_mem rest _ fg n h hrest]
        show lookupNode (setOriginOne g.nodes n w) n = _
        exact lookup_setOriginOne_self g.nodes n w
      · have hne : n ≠ n0 := by
          intro hc
          subst hc
          exact hnd.1 (List.mem_map.mpr ⟨(n, w), h', rfl⟩)
        rw [ih _ fg n w h hnd.2 h']
        show (lookupNode (setOriginOne g.nodes n0 w0) n).map _ = _
        rw [lookup_setOriginOne_ne g.nodes n0 w0 n hne]
    · rw [if_neg hkm] at h
      exact Except.noConfusion h

/-! ### The factor-synthesis loop -/

theorem pyDictOf_nil [DecidableEq α] : pyDictOf ([] : List (α × γ)) = [] := rfl

theorem pytype_fnode (nt : α → Option NodeType) (k : Nat) :
    FGNode.pytype nt (FGNode.fnode k) = some NodeType.factor_node := rfl

theorem pytype_vnode (nt : α → Option NodeType) (k : Nat) :
    FGNode.pytype nt (FGNode.vnode k) = some NodeType.variable_node := rfl

theorem fnodeEntries_zero : fnodeEntries (α := α) 0 = [] := rfl

theorem fnodeEntries_succ (m : Nat) :
    fnodeEntries (α := α) (m + 1)
      = (FGNode.fnode m, { type := some NodeType.factor_node, origin := none, extra := [] })
        :: fnodeEntries m := by
  unfold fnodeEntries
  rw [reverse_range_succ, List.map_cons]

theorem fnodeKeys_zero : fnodeKeys (α := α) 0 = [] := rfl

theorem fnodeKeys_succ (m : Nat) :
    fnodeKeys (α := α) (m + 1) = FGNode.fnode m :: fnodeKeys m := by
  unfold fnodeKeys
  rw [reverse_range_succ, List.map_cons]

theorem loopEdges_nil : loopEdges ([] : List (FGNode α × FGNode α)) = [] := rfl

theorem loopEdges_cons (e : FGNode α × FGNode α) (rest : List (FGNode α × FGNode α)) :
    loopEdges (e :: rest) = (e.1, FGNode.fnode rest.length)
      :: (FGNode.fnode rest.length, e.2) :: loopEdges rest := by
  unfold loopEdges
  rw [List.length_cons, reverse_range_succ]
  rw [show (e :: rest).zip (rest.length :: (List.range rest.length).reverse)
    = (e, rest.length) :: rest.zip (List.range rest.length).reverse from rfl]
  rw [List.flatMap_cons]
  rfl

theorem fnodeEntries_length (m : Nat) : (fnodeEntries (α := α) m).length = m := by
  unfold fnodeEntries
  rw [List.length_map, List.length_reverse, List.length_range]

theorem fnodeKeys_length (m : Nat) : (fnodeKeys (α := α) m).length = m := by
  unfold fnodeKeys
  rw [List.length_map, List.length_reverse, List.length_range]

theorem loopEdges_length (es : List (FGNode α × FGNode α)) :
    (loopEdges es).length = 2 * es.length := by
  induction es with
  | nil => rfl
  | cons e rest ih =>
    rw [loopEdges_cons, List.length_cons, List.length_cons, ih, List.length_cons]
    ring

theorem fgLoop_spec [DecidableEq α] (nt : α → Option NodeType) :
    ∀ (es : List (FGNode α × FGNode α)) (g : FactorGraph (FGNode α) α),
    (∀ e ∈ es, keyMem g.nodes e.1 ∧ keyMem g.nodes e.2) →
    (∀ e ∈ es, e.1 ≠ e.2) →
    (∀ k, k < es.length → ¬ keyMem g.nodes (FGNode.fnode k)) →
    (∀ e' ∈ g.edges, keyMem g.nodes e'.1 ∧ keyMem g.nodes e'.2) →
    fgLoop (FGNode.pytype nt) g es (List.range es.length) =
      .ok { nodes := g.nodes ++ fnodeEntries es.length,
            edges := g.edges ++ loopEdges es,
            owned := g.owned ++ fnodeKeys es.length } := by
  intro es
  induction es with
  | nil =>
    intro g _ _ _ _
    show Except.ok g = _
    simp [fnodeEntries_zero, loopEdges_nil, fnodeKeys_zero]
  | cons e rest ih =>
    intro g hend hne hfn hcl
    have hK : rest.length < (e :: rest).length := by
      rw [List.length_cons]
      omega
    have hfresh : ¬ keyMem g.nodes (FGNode.fnode rest.length) := hfn rest.length hK
    have hstep0 : fgLoop (FGNode.pytype nt) g (e :: rest) (List.range (e :: rest).length)
        = (match g.set_node (FGNode.pytype nt) (FGNode.fnode rest.length) [] with
          | Except.error err => Except.error err
          | Except.ok g1 => fgLoop (FGNode.pytype nt)
              (g1.set_edges [(e.1, FGNode.fnode rest.length),
                (FGNode.fnode rest.length, e.2)]) rest (List.range rest.length)) := by
      show (match popLast (List.range (e :: rest).length) with
        | none => Except.error PyErr.indexError
        | some (k, idxs) =>
          match g.set_node (FGNode.pytype nt) (FGNode.fnode k) [] with
          | .error err => .error err
          | .ok g1 =>
            fgLoop (FGNode.pytype nt)
              (g1.set_edges [(e.1, FGNode.fnode k), (FGNode.fnode k, e.2)]) rest idxs) = _
      rw [List.length_cons, popLast_range_succ rest.length]
    rw [hstep0]
    rw [set_node_eq_ok (FGNode.pytype nt) g (FGNode.fnode rest.length) []
      NodeType.factor_node (pytype_fnode nt rest.length)]
    rw [insertTyped_of_not_mem g.nodes (FGNode.fnode rest.length) NodeType.factor_node []
      hfresh, pyDictOf_nil]
    set K := rest.length with hKdef
    set dataF : NodeData α :=
      { type := some NodeType.factor_node, origin := none, extra := [] } with hdataF
    set g1 : FactorGraph (FGNode α) α :=
      { nodes := g.nodes ++ [(FGNode.fnode K, dataF)], edges := g.edges,
        owned := g.owned ++ [FGNode.fnode K] } with hg1
    have hkm1 : ∀ x, keyMem g1.nodes x ↔ keyMem g.nodes x ∨ x = FGNode.fnode K := by
      intro x
      rw [hg1]
      show keyMem (g.nodes ++ [(FGNode.fnode K, dataF)]) x ↔ _
      rw [keyMem_append, keyMem_cons]
      constructor
      · rintro (h | h | h)
        · exact Or.inl h
        · exact Or.inr h.symm
        · exact absurd h (keyMem_nil x)
      · rintro (h | h)
        · exact Or.inl h
        · exact Or.inr (Or.inl h.symm)
    have hfkK : ∀ x, keyMem g.nodes x → x ≠ FGNode.fnode K := by
      intro x hx he
      exact hfresh (he ▸ hx)
    have hstep1 : g1.set_edge e.1 (FGNode.fnode K)
        = { nodes := g1.nodes, edges := g.edges ++ [(e.1, FGNode.fnode K)],
            owned := g1.owned } := by
      have hm1 : keyMem g1.nodes e.1 :=
        (hkm1 e.1).mpr (Or.inl (hend e (List.mem_cons_self e rest)).1)
      have hm2 : keyMem g1.nodes (FGNode.fnode K) := (hkm1 _).mpr (Or.inr rfl)
      have hf : ¬ ∃ e0 ∈ g1.edges, sameEdge e0 (e.1, FGNode.fnode K) := by
        rintro ⟨e0, he0, hs⟩
        have hcl0 := hcl e0 he0
        rcases hs with ⟨h1, h2⟩ | ⟨h1, h2⟩
        · exact hfkK e0.2 hcl0.2 h2
        · exact hfkK e0.1 hcl0.1 h1
      rw [set_edge_fresh g1 e.1 (FGNode.fnode K) hm1 hm2 hf]
    have hstep2 : (g1.set_edge e.1 (FGNode.fnode K)).set_edge (FGNode.fnode K) e.2
        = { nodes := g1.nodes,
            edges := g.edges ++ [(e.1, FGNode.fnode K), (FGNode.fnode K, e.2)],
            owned := g1.owned } := by
      rw [hstep1]
      have hm1 : keyMem g1.nodes (FGNode.fnode K) := (hkm1 _).mpr (Or.inr rfl)
      have hm2 : keyMem g1.nodes e.2 :=
        (hkm1 e.2).mpr (Or.inl (hend e (List.mem_cons_self e rest)).2)
      have hf : ¬ ∃ e0 ∈ g.edges ++ [(e.1, FGNode.fnode K)],
          sameEdge e0 (FGNode.fnode K, e.2) := by
        rintro ⟨e0, he0, hs⟩
        rcases List.mem_append.mp he0 with h0 | h0
        · have hcl0 := hcl e0 h0
          rcases hs with ⟨h1, h2⟩ | ⟨h1, h2⟩
          · exact hfkK e0.1 hcl0.1 h1
          · exact hfkK e0.2 hcl0.2 h2
        · rw [List.mem_singleton.mp h0] at hs
          rcases hs with ⟨h1, h2⟩ | ⟨h1, h2⟩
          · exact hfkK e.1 (hend e (List.mem_cons_self e rest)).1 h1
          · exact hne e (List.mem_cons_self e rest) h1
      have := set_edge_fresh { nodes := g1.nodes,
                               edges := g.edges ++ [(e.1, FGNode.fnode K)],
                               owned := g1.owned }
        (FGNode.fnode K) e.2 hm1 hm2 hf
      rw [this, List.append_assoc]
      rfl
    show fgLoop (FGNode.pytype nt)
        (g1.set_edges [(e.1, FGNode.fnode K), (FGNode.fnode K, e.2)]) rest
        (List.range K) = _
    have hse : g1.set_edges [(e.1, FGNode.fnode K), (FGNode.fnode K, e.2)]
        = { nodes := g1.nodes,
            edges := g.edges ++ [(e.1, FGNode.fnode K), (FGNode.fnode K, e.2)],
            owned := g1.owned } := by
      show ((g1.set_edge e.1 (FGNode.fnode K)).set_edge (FGNode.fnode K) e.2).set_edges []
        = _
      rw [show ∀ h : FactorGraph (FGNode α) α, h.set_edges [] = h from fun h => rfl]
      exact hstep2
    rw [hse]
    set g3 : FactorGraph (FGNode α) α :=
      { nodes := g1.nodes,
        edges := g.edges ++ [(e.1, FGNode.fnode K), (FGNode.fnode K, e.2)],
        owned := g1.owned } with hg3
    have hrec := ih g3 ?_ ?_ ?_ ?_
    · rw [show List.range K = List.range rest.length from rfl] at hrec
      rw [hrec]
      rw [hg3, hg1]
      show Except.ok ({ nodes := (g.nodes ++ [(FGNode.fnode K, dataF)]) ++ fnodeEntries K,
                        edges := (g.edges ++ [(e.1, FGNode.fnode K), (FGNode.fnode K, e.2)])
                          ++ loopEdges rest,
                        owned := (g.owned ++ [FGNode.fnode K]) ++ fnodeKeys K }
          : FactorGraph (FGNode α) α) = _
      rw [List.append_assoc, List.append_assoc, List.append_assoc, List.singleton_append]
      rw [List.length_cons, fnodeEntries_succ, fnodeKeys_succ, loopEdges_cons]
      rfl
    · intro e2 h2
      rw [hg3]
      show keyMem g1.nodes e2.1 ∧ keyMem g1.nodes e2.2
      exact ⟨(hkm1 e2.1).mpr (Or.inl (hend e2 (List.mem_cons_of_mem e h2)).1),
        (hkm1 e2.2).mpr (Or.inl (hend e2 (List.mem_cons_of_mem e h2)).2)⟩
    · exact fun e2 h2 => hne e2 (List.mem_cons_of_mem e h2)
    · intro k hk
      rw [hg3]
      show ¬ keyMem g1.nodes (FGNode.fnode k)
      rw [hkm1]
      rintro (h | h)
      · exact hfn k (by rw [List.length_cons]; omega) h
      · have : k = K := FGNode.fnode.inj h
        omega
    · intro e0 he0
      rw [hg3] at he0 ⊢
      show keyMem g1.nodes e0.1 ∧ keyMem g1.nodes e0.2
      rcases List.mem_append.mp he0 with h0 | h0
      · have hcl0 := hcl e0 h0
        exact ⟨(hkm1 e0.1).mpr (Or.inl hcl0.1), (hkm1 e0.2).mpr (Or.inl hcl0.2)⟩
      · rcases List.mem_cons.mp h0 with h1 | h1
        · rw [h1]
          exact ⟨(hkm1 _).mpr (Or.inl (hend e (List.mem_cons_self e rest)).1),
            (hkm1 _).mpr (Or.inr rfl)⟩
        · rw [List.mem_singleton.mp h1]
          exact ⟨(hkm1 _).mpr (Or.inr rfl),
            (hkm1 _).mpr (Or.inl (hend e (List.mem_cons_self e rest)).2)⟩

/-! ### The non-bipartite pipeline -/

theorem bind_ok (a : γ) (k : γ → Except PyErr δ) : (Except.ok a >>= k) = k a := rfl

theorem applyOrigins_append [DecidableEq β] (ps : List (β × ω))
    (l1 l2 : List (β × NodeData ω)) :
    applyOrigins ps (l1 ++ l2) = applyOrigins ps l1 ++ applyOrigins ps l2 := by
  unfold applyOrigins
  exact List.map_append _ l1 l2

theorem nonbip_keys [DecidableEq α] (g : NxGraph α) (hnd : g.nodes.Nodup) :
    (nonbip_mapping g).map Prod.fst = g.nodes := by
  unfold nonbip_mapping
  rw [keys_dictUpdates_of_mem]
  · rw [mapping0_of_nodup g hnd, List.map_map]
    show List.map id g.nodes = g.nodes
    exact List.map_id g.nodes
  · intro q hq
    rw [mapping0_keyMem]
    exact (popAssign_mem _ _ q hq).1

theorem nonbip_keys_nodup [DecidableEq α] (g : NxGraph α) :
    ((nonbip_mapping g).map Prod.fst).Nodup := by
  unfold nonbip_mapping
  apply keys_dictUpdates_nodup
  unfold mapping0
  exact keys_pyDictOf_nodup _

theorem nonbip_entries [DecidableEq α] (g : NxGraph α) (hnd : g.nodes.Nodup) :
    nonbip_mapping g = g.nodes.map (fun a => (a, mapApply (nonbip_mapping g) a)) := by
  have hext := dict_ext (nonbip_mapping g) FGNode.orig (nonbip_keys_nodup g)
  rw [nonbip_keys g hnd] at hext
  exact hext

theorem nonbip_pipeline_spec [DecidableEq α] (g : NxGraph α)
    (hnd : g.nodes.Nodup) (hcl : g.edgesClosed) (hsl : g.noSelfLoops)
    (hpar : g.noParallel) :
    convert_nonbip g = .ok
      { nodes := g.nodes.map (fun a => (mapApply (nonbip_mapping g) a,
          { type := some NodeType.variable_node, origin := some a, extra := [] }))
          ++ fnodeEntries g.edges.length,
        edges := loopEdges (g.edges.map (fun e =>
          (mapApply (nonbip_mapping g) e.1, mapApply (nonbip_mapping g) e.2))),
        owned := g.nodes.map (mapApply (nonbip_mapping g))
          ++ fnodeKeys g.edges.length } := by
  set f : α → FGNode α := mapApply (nonbip_mapping g) with hf
  have hmapform : g.nodes.map f = (List.range g.nodes.length).reverse.map FGNode.vnode :=
    map_nonbip g hnd
  have hshape : ∀ a ∈ g.nodes, ∃ i, f a = FGNode.vnode i := by
    intro a ha
    have hm : f a ∈ g.nodes.map f := List.mem_map.mpr ⟨a, ha, rfl⟩
    rw [hmapform] at hm
    rcases List.mem_map.mp hm with ⟨i, _, hi⟩
    exact ⟨i, hi.symm⟩
  have hinj : ∀ a ∈ g.nodes, ∀ b ∈ g.nodes, f a = f b → a = b := by
    intro a ha b hb hab
    rcases List.mem_iff_getElem.mp ha with ⟨i, hi, hia⟩
    rcases List.mem_iff_getElem.mp hb with ⟨j, hj, hjb⟩
    rw [← hia, ← hjb] at hab ⊢
    rw [hf, mapApply_nonbip g hnd i hi, mapApply_nonbip g hnd j hj] at hab
    have hij := FGNode.vnode.inj hab
    have hijeq : i = j := by omega
    subst hijeq
    rfl
  have hfnd : (g.nodes.map f).Nodup := by
    rw [hmapform]
    apply List.Nodup.map
    · exact fun i j h => FGNode.vnode.inj h
    · rw [List.nodup_reverse]
      exact List.nodup_range _
  have hr : relabel_nodes g f = { nodes := g.nodes.map f,
                                  edges := g.edges.map (fun e => (f e.1, f e.2)) } := by
    unfold relabel_nodes
    congr 1
    · exact pyDedup_of_nodup _ hfnd
    · apply dedupEdges_of_pairwise
      rw [List.pairwise_map]
      apply List.Pairwise.imp_of_mem ?_ hpar
      intro e e' he he' hne' hsame
      apply hne'
      have hc1 := (hcl e he).1
      have hc2 := (hcl e he).2
      have hc1' := (hcl e' he').1
      have hc2' := (hcl e' he').2
      rcases hsame with ⟨h1, h2⟩ | ⟨h1, h2⟩
      · exact Or.inl ⟨hinj e.1 hc1 e'.1 hc1' h1, hinj e.2 hc2 e'.2 hc2' h2⟩
      · exact Or.inr ⟨hinj e.1 hc1 e'.2 hc2' h1, hinj e.2 hc2 e'.1 hc1' h2⟩
  have hty1 : ∀ n ∈ g.nodes.map f, ((FGNode.pytype g.ntype) n).isSome := by
    intro n hn
    rcases List.mem_map.mp hn with ⟨a, ha, rfl⟩
    rcases hshape a ha with ⟨i, hi⟩
    rw [hi]
    rfl
  have hg1 := set_nodes_spec (FGNode.pytype g.ntype)
    (FactorGraph.empty : FactorGraph (FGNode α) α) (g.nodes.map f)
    hty1 (fun n _ => keyMem_nil n) hfnd
  set nodes1 : List (FGNode α × NodeData α) := g.nodes.map (fun a =>
    (f a, { type := some NodeType.variable_node, origin := none, extra := [] }))
    with hnodes1
  have hentry : (g.nodes.map f).map (fun n => ((n,
      { type := FGNode.pytype g.ntype n, origin := none, extra := [] })
        : FGNode α × NodeData α)) = nodes1 := by
    rw [List.map_map, hnodes1]
    apply List.map_congr_left
    intro a ha
    show (f a, ({ type := FGNode.pytype g.ntype (f a), origin := none, extra := [] }
      : NodeData α)) = _
    rcases hshape a ha with ⟨i, hi⟩
    rw [hi]
    rfl
  rw [hentry] at hg1
  have hkeys1 : nodes1.map Prod.fst = g.nodes.map f := by
    rw [hnodes1, List.map_map]
    rfl
  set es : List (FGNode α × FGNode α) :=
    g.edges.map (fun e => (f e.1, f e.2)) with hes
  have hg2 := fgLoop_spec g.ntype es
    ({ nodes := nodes1, edges := [], owned := g.nodes.map f } : FactorGraph (FGNode α) α)
    ?hend ?hne ?hfn ?hclo
  case hend =>
    intro e he
    rcases List.mem_map.mp he with ⟨e0, he0, rfl⟩
    constructor
    · show keyMem nodes1 (f e0.1)
      rw [keyMem_iff_mem_keys, hkeys1]
      exact List.mem_map.mpr ⟨e0.1, (hcl e0 he0).1, rfl⟩
    · show keyMem nodes1 (f e0.2)
      rw [keyMem_iff_mem_keys, hkeys1]
      exact List.mem_map.mpr ⟨e0.2, (hcl e0 he0).2, rfl⟩
  case hne =>
    intro e he
    rcases List.mem_map.mp he with ⟨e0, he0, rfl⟩
    show f e0.1 ≠ f e0.2
    intro hc
    exact hsl e0 he0 (hinj e0.1 (hcl e0 he0).1 e0.2 (hcl e0 he0).2 hc)
  case hfn =>
    intro k _
    show ¬ keyMem nodes1 (FGNode.fnode k)
    rw [keyMem_iff_mem_keys, hkeys1]
    intro hc
    rcases List.mem_map.mp hc with ⟨a, ha, hfa⟩
    rcases hshape a ha with ⟨i, hi⟩
    rw [hi] at hfa
    exact FGNode.noConfusion hfa
  case hclo =>
    intro e' he'
    simp at he'
  -- the origin dictionary
  have hentries : nonbip_mapping g = g.nodes.map (fun a => (a, f a)) :=
    nonbip_entries g hnd
  have hvals : ((nonbip_mapping g).map Prod.snd).Nodup := by
    rw [hentries, List.map_map]
    show (g.nodes.map f).Nodup
    exact hfnd
  have hinv : invertDict (nonbip_mapping g) = g.nodes.map (fun a => (f a, a)) := by
    rw [invertDict_of_nodup_values _ hvals]
    rw [hentries, List.map_map]
    rfl
  have hinvkeys : ((g.nodes.map (fun a => (f a, a))).map Prod.fst) = g.nodes.map f := by
    rw [List.map_map]
    rfl
  set g2 : FactorGraph (FGNode α) α :=
    { nodes := nodes1 ++ fnodeEntries es.length, edges := [] ++ loopEdges es,
      owned := g.nodes.map f ++ fnodeKeys es.length } with hg2def
  have horig := setOriginAll_spec (g.nodes.map (fun a => (f a, a))) g2
    (by rw [hinvkeys]; exact hfnd)
    (by
      intro q hq
      rcases List.mem_map.mp hq with ⟨a, ha, rfl⟩
      show keyMem g2.nodes (f a)
      rw [hg2def]
      show keyMem (nodes1 ++ fnodeEntries es.length) (f a)
      rw [keyMem_append]
      left
      rw [keyMem_iff_mem_keys, hkeys1]
      exact List.mem_map.mpr ⟨a, ha, rfl⟩)
  -- compute the origin-annotated node list
  have happ1 : applyOrigins (g.nodes.map (fun a => (f a, a))) nodes1
      = g.nodes.map (fun a => (f a,
          { type := some NodeType.variable_node, origin := some a, extra := [] })) := by
    rw [hnodes1]
    unfold applyOrigins
    rw [List.map_map]
    apply List.map_congr_left
    intro a ha
    have hlast : lastVal (g.nodes.map (fun a => (f a, a))) (f a) = some a := by
      apply lastVal_of_nodup
      · rw [hinvkeys]
        exact hfnd
      · exact List.mem_map.mpr ⟨a, ha, rfl⟩
    show ((match lastVal (g.nodes.map (fun a => (f a, a))) (f a) with
      | some w => (f a, { type := some NodeType.variable_node, origin := some w, extra := [] })
      | none => (f a, { type := some NodeType.variable_node, origin := none, extra := [] }))
      : FGNode α × NodeData α) = _
    rw [hlast]
  have happ2 : applyOrigins (g.nodes.map (fun a => (f a, a)))
      (fnodeEntries es.length) = fnodeEntries es.length := by
    unfold applyOrigins
    have hpt : ∀ p ∈ fnodeEntries (α := α) es.length,
        (match lastVal (g.nodes.map (fun a => (f a, a))) p.1 with
          | some w => (p.1, { p.2 with origin := some w })
          | none => p) = p := by
      intro p hp
      have hlast : lastVal (g.nodes.map (fun a => (f a, a))) p.1 = none := by
        rw [lastVal_eq_none, keyMem_iff_mem_keys, hinvkeys]
        intro hc
        rcases List.mem_map.mp hc with ⟨a, ha, hfa⟩
        rcases hshape a ha with ⟨i, hi⟩
        unfold fnodeEntries at hp
        rcases List.mem_map.mp hp with ⟨k, _, hk⟩
        rw [← hk] at hfa
        rw [hi] at hfa
        exact FGNode.noConfusion hfa
      rw [hlast]
    rw [List.map_congr_left hpt]
    exact List.map_id _
  -- assemble the pipeline
  have hconv : convert_nonbip g
      = ((FactorGraph.empty : FactorGraph (FGNode α) α).set_nodes (FGNode.pytype g.ntype)
          (relabel_nodes g f).nodes >>= fun fg =>
          (fgLoop (FGNode.pytype g.ntype) fg (relabel_nodes g f).edges
            (List.range (relabel_nodes g f).edges.length) >>= fun fg =>
          setOriginAll fg (invertDict (nonbip_mapping g)))) := rfl
  rw [hconv, hr]
  rw [show ({ nodes := g.nodes.map f, edges := g.edges.map (fun e => (f e.1, f e.2)) }
    : PlainGraph (FGNode α)).nodes = g.nodes.map f from rfl]
  rw [show ({ nodes := g.nodes.map f, edges := g.edges.map (fun e => (f e.1, f e.2)) }
    : PlainGraph (FGNode α)).edges = es from rfl]
  rw [hg1, bind_ok]
  rw [show ({ nodes := FactorGraph.empty.nodes ++ nodes1, edges := FactorGraph.empty.edges,
              owned := FactorGraph.empty.owned ++ g.nodes.map f } : FactorGraph (FGNode α) α)
    = { nodes := nodes1, edges := [], owned := g.nodes.map f } from by
      simp [FactorGraph.empty]]
  rw [hg2, bind_ok, hinv, horig]
  show Except.ok ({ nodes := applyOrigins (g.nodes.map fun a => (f a, a))
                      (nodes1 ++ fnodeEntries es.length),
                    edges := [] ++ loopEdges es,
                    owned := g.nodes.map f ++ fnodeKeys es.length }
    : FactorGraph (FGNode α) α) = _
  rw [applyOrigins_append, happ1, happ2, List.nil_append]
  rw [show es.length = g.edges.length from by rw [hes, List.length_map]]

/-! ### The bipartite pipeline -/

theorem lookupNode_map_inj [DecidableEq β] (ns : List α) (f : α → β)
    (D : α → NodeData ω) (hinj : ∀ a ∈ ns, ∀ b ∈ ns, f a = f b → a = b) (b : α)
    (hb : b ∈ ns) :
    lookupNode (ns.map (fun a => (f a, D a))) (f b) = some (D b) := by
  induction ns with
  | nil => simp at hb
  | cons a0 rest ih =>
    rw [List.map_cons, lookupNode_cons]
    by_cases hz : f a0 = f b
    · have : a0 = b := hinj a0 (List.mem_cons_self a0 rest) b hb hz
      subst this
      simp
    · rw [if_neg hz]
      have hbr : b ∈ rest := by
        rcases List.mem_cons.mp hb with h | h
        · exact absurd (h ▸ rfl) hz
        · exact h
      exact ih (fun x hx y hy => hinj x (List.mem_cons_of_mem a0 hx)
        y (List.mem_cons_of_mem a0 hy)) hbr

theorem vnList_shape [DecidableEq α] (g : NxGraph α) (hnd : g.nodes.Nodup) (a : α)
    (ha : a ∈ g.nodes) (h0 : g.bipartite a = some 0) :
    ∃ i, mapApply (bipDict g) a = FGNode.vnode i := by
  have hv : a ∈ vnList g := (mem_vnList g a).mpr ⟨ha, h0⟩
  rcases List.mem_iff_getElem.mp hv with ⟨k, hk, hka⟩
  rw [← hka]
  exact ⟨(vnList g).length - 1 - k, mapApply_bipDict_vn g hnd k hk⟩

theorem fnList_shape [DecidableEq α] (g : NxGraph α) (hnd : g.nodes.Nodup) (a : α)
    (ha : a ∈ g.nodes) (h1 : g.bipartite a = some 1) :
    ∃ i, mapApply (bipDict g) a = FGNode.fnode i := by
  have hv : a ∈ fnList g := (mem_fnList g a).mpr ⟨ha, h1⟩
  rcases List.mem_iff_getElem.mp hv with ⟨k, hk, hka⟩
  rw [← hka]
  exact ⟨(fnList g).length - 1 - k, mapApply_bipDict_fn g hnd k hk⟩

theorem bipDict_inj [DecidableEq α] (g : NxGraph α) (hnd : g.nodes.Nodup) :
    ∀ a ∈ g.nodes, ∀ b ∈ g.nodes, mapApply (bipDict g) a = mapApply (bipDict g) b
      → a = b := by
  have hvcase : ∀ a ∈ vnList g, ∀ b ∈ vnList g,
      mapApply (bipDict g) a = mapApply (bipDict g) b → a = b := by
    intro a ha b hb hab
    rcases List.mem_iff_getElem.mp ha with ⟨i, hi, hia⟩
    rcases List.mem_iff_getElem.mp hb with ⟨j, hj, hjb⟩
    rw [← hia, ← hjb] at hab ⊢
    rw [mapApply_bipDict_vn g hnd i hi, mapApply_bipDict_vn g hnd j hj] at hab
    have hij := FGNode.vnode.inj hab
    have heq : i = j := by omega
    subst heq
    rfl
  have hfcase : ∀ a ∈ fnList g, ∀ b ∈ fnList g,
      mapApply (bipDict g) a = mapApply (bipDict g) b → a = b := by
    intro a ha b hb hab
    rcases List.mem_iff_getElem.mp ha with ⟨i, hi, hia⟩
    rcases List.mem_iff_getElem.mp hb with ⟨j, hj, hjb⟩
    rw [← hia, ← hjb] at hab ⊢
    rw [mapApply_bipDict_fn g hnd i hi, mapApply_bipDict_fn g hnd j hj] at hab
    have hij := FGNode.fnode.inj hab
    have heq : i = j := by omega
    subst heq
    rfl
  have hshape3 : ∀ a, a ∈ g.nodes →
      (∃ i, mapApply (bipDict g) a = FGNode.vnode i ∧ g.bipartite a = some 0)
      ∨ (∃ i, mapApply (bipDict g) a = FGNode.fnode i ∧ g.bipartite a = some 1)
      ∨ (mapApply (bipDict g) a = FGNode.orig a) := by
    intro a ha
    by_cases h0 : g.bipartite a = some 0
    · rcases vnList_shape g hnd a ha h0 with ⟨i, hi⟩
      exact Or.inl ⟨i, hi, h0⟩
    · by_cases h1 : g.bipartite a = some 1
      · rcases fnList_shape g hnd a ha h1 with ⟨i, hi⟩
        exact Or.inr (Or.inl ⟨i, hi, h1⟩)
      · exact Or.inr (Or.inr (mapApply_bipDict_other g a h0 h1))
  intro a ha b hb hab
  rcases hshape3 a ha with ⟨i, hi, h0a⟩ | ⟨i, hi, h1a⟩ | hoa
  · rcases hshape3 b hb with ⟨j, hj, h0b⟩ | ⟨j, hj, h1b⟩ | hob
    · exact hvcase a ((mem_vnList g a).mpr ⟨ha, h0a⟩) b ((mem_vnList g b).mpr ⟨hb, h0b⟩) hab
    · rw [hi, hj] at hab
      exact FGNode.noConfusion hab
    · rw [hi, hob] at hab
      exact FGNode.noConfusion hab
  · rcases hshape3 b hb with ⟨j, hj, h0b⟩ | ⟨j, hj, h1b⟩ | hob
    · rw [hi, hj] at hab
      exact FGNode.noConfusion hab
    · exact hfcase a ((mem_fnList g a).mpr ⟨ha, h1a⟩) b ((mem_fnList g b).mpr ⟨hb, h1b⟩) hab
    · rw [hi, hob] at hab
      exact FGNode.noConfusion hab
  · rcases hshape3 b hb with ⟨j, hj, h0b⟩ | ⟨j, hj, h1b⟩ | hob
    · rw [hoa, hj] at hab
      exact FGNode.noConfusion hab
    · rw [hoa, hj] at hab
      exact FGNode.noConfusion hab
    · rw [hoa, hob] at hab
      exact FGNode.orig.inj hab

theorem bipDict_entries_map [DecidableEq α] (g : NxGraph α) (hnd : g.nodes.Nodup) :
    bipDict g = g.nodes.map (fun a => (a, mapApply (bipDict g) a)) := by
  have hext := dict_ext (bipDict g) FGNode.orig (bipDict_keys_nodup g)
  rw [bipDict_keys g hnd] at hext
  exact hext

theorem bip_pipeline_spec [DecidableEq α] (g : NxGraph α)
    (hnd : g.nodes.Nodup) (hcl : g.edgesClosed) (hlab : g.labels01) :
    ∃ fg, convert_bip g = .ok fg
      ∧ fg.nodes = g.nodes.map (fun a => (mapApply (bipDict g) a,
          { type := FGNode.pytype g.ntype (mapApply (bipDict g) a),
            origin := some a, extra := [] }))
      ∧ fg.owned = g.nodes.map (mapApply (bipDict g))
      ∧ (∀ e' ∈ fg.edges, ∃ e0 ∈ g.edges,
          e'.1 = mapApply (bipDict g) e0.1 ∧ e'.2 = mapApply (bipDict g) e0.2) := by
  set f : α → FGNode α := mapApply (bipDict g) with hf
  have hsome : ∀ n ∈ g.nodes, (g.bipartite n).isSome := by
    intro n hn
    rcases hlab n hn with h | h <;> rw [h] <;> rfl
  have hshape : ∀ a ∈ g.nodes, (∃ i, f a = FGNode.vnode i) ∨ (∃ i, f a = FGNode.fnode i) := by
    intro a ha
    rcases hlab a ha with h | h
    · exact Or.inl (vnList_shape g hnd a ha h)
    · exact Or.inr (fnList_shape g hnd a ha h)
  have hinj := bipDict_inj g hnd
  have hfnd : (g.nodes.map f).Nodup := List.Nodup.map_on hinj hnd
  have hrn : (relabel_nodes g f).nodes = g.nodes.map f := by
    unfold relabel_nodes
    exact pyDedup_of_nodup _ hfnd
  have hre : ∀ e' ∈ (relabel_nodes g f).edges, ∃ e0 ∈ g.edges,
      e'.1 = f e0.1 ∧ e'.2 = f e0.2 := by
    intro e' he'
    have hm := mem_dedupEdges _ e' he'
    rcases List.mem_map.mp hm with ⟨e0, he0, hfe⟩
    exact ⟨e0, he0, by rw [← hfe], by rw [← hfe]⟩
  have hty1 : ∀ n ∈ g.nodes.map f, ((FGNode.pytype g.ntype) n).isSome := by
    intro n hn
    rcases List.mem_map.mp hn with ⟨a, ha, rfl⟩
    rcases hshape a ha with ⟨i, hi⟩ | ⟨i, hi⟩ <;> rw [hi] <;> rfl
  have hg1 := set_nodes_spec (FGNode.pytype g.ntype)
    (FactorGraph.empty : FactorGraph (FGNode α) α) (g.nodes.map f)
    hty1 (fun n _ => keyMem_nil n) hfnd
  set nodes1 : List (FGNode α × NodeData α) := g.nodes.map (fun a =>
    (f a, { type := FGNode.pytype g.ntype (f a), origin := none, extra := [] }))
    with hnodes1
  have hentry : (g.nodes.map f).map (fun n => ((n,
      { type := FGNode.pytype g.ntype n, origin := none, extra := [] })
        : FGNode α × NodeData α)) = nodes1 := by
    rw [List.map_map, hnodes1]
    rfl
  rw [hentry] at hg1
  have hkeys1 : nodes1.map Prod.fst = g.nodes.map f := by
    rw [hnodes1, List.map_map]
    rfl
  set g1 : FactorGraph (FGNode α) α :=
    { nodes := nodes1, edges := [], owned := g.nodes.map f } with hg1def
  have hse := set_edges_parts (relabel_nodes g f).edges g1 ?hend
  case hend =>
    intro e he
    rcases hre e he with ⟨e0, he0, h1, h2⟩
    constructor
    · show keyMem nodes1 e.1
      rw [keyMem_iff_mem_keys, hkeys1, h1]
      exact List.mem_map.mpr ⟨e0.1, (hcl e0 he0).1, rfl⟩
    · show keyMem nodes1 e.2
      rw [keyMem_iff_mem_keys, hkeys1, h2]
      exact List.mem_map.mpr ⟨e0.2, (hcl e0 he0).2, rfl⟩
  set g2 : FactorGraph (FGNode α) α := g1.set_edges (relabel_nodes g f).edges with hg2def
  have hentries : bipDict g = g.nodes.map (fun a => (a, f a)) := bipDict_entries_map g hnd
  have hvals : ((bipDict g).map Prod.snd).Nodup := by
    rw [hentries, List.map_map]
    show (g.nodes.map f).Nodup
    exact hfnd
  have hinv : invertDict (bipDict g) = g.nodes.map (fun a => (f a, a)) := by
    rw [invertDict_of_nodup_values _ hvals, hentries, List.map_map]
    rfl
  have hinvkeys : ((g.nodes.map (fun a => (f a, a))).map Prod.fst) = g.nodes.map f := by
    rw [List.map_map]
    rfl
  have horig := setOriginAll_spec (g.nodes.map (fun a => (f a, a))) g2
    (by rw [hinvkeys]; exact hfnd)
    (by
      intro q hq
      rcases List.mem_map.mp hq with ⟨a, ha, rfl⟩
      show keyMem g2.nodes (f a)
      rw [hg2def, hse.1]
      show keyMem nodes1 (f a)
      rw [keyMem_iff_mem_keys, hkeys1]
      exact List.mem_map.mpr ⟨a, ha, rfl⟩)
  have happ1 : applyOrigins (g.nodes.map (fun a => (f a, a))) nodes1
      = g.nodes.map (fun a => (f a,
          { type := FGNode.pytype g.ntype (f a), origin := some a, extra := [] })) := by
    rw [hnodes1]
    unfold applyOrigins
    rw [List.map_map]
    apply List.map_congr_left
    intro a ha
    have hlast : lastVal (g.nodes.map (fun a => (f a, a))) (f a) = some a := by
      apply lastVal_of_nodup
      · rw [hinvkeys]
        exact hfnd
      · exact List.mem_map.mpr ⟨a, ha, rfl⟩
    show ((match lastVal (g.nodes.map (fun a => (f a, a))) (f a) with
      | some w => (f a,
          { type := FGNode.pytype g.ntype (f a), origin := some w, extra := [] })
      | none => (f a,
          { type := FGNode.pytype g.ntype (f a), origin := none, extra := [] }))
      : FGNode α × NodeData α) = _
    rw [hlast]
  have hconv : convert_bip g
      = (bip_mapping g >>= fun m =>
          ((FactorGraph.empty : FactorGraph (FGNode α) α).set_nodes (FGNode.pytype g.ntype)
            (relabel_nodes g (mapApply m)).nodes >>= fun fg =>
          setOriginAll (fg.set_edges (relabel_nodes g (mapApply m)).edges)
            (invertDict m))) := rfl
  refine ⟨{ nodes := g.nodes.map (fun a =>
              (f a, { type := FGNode.pytype g.ntype (f a), origin := some a, extra := [] })),
            edges := g2.edges, owned := g.nodes.map f }, ?_, rfl, rfl, ?_⟩
  · rw [hconv, bip_mapping_ok g hsome, bind_ok, ← hf, hrn, hg1, bind_ok]
    rw [show ({ nodes := FactorGraph.empty.nodes ++ nodes1, edges := FactorGraph.empty.edges,
                owned := FactorGraph.empty.owned ++ g.nodes.map f } : FactorGraph (FGNode α) α)
      = g1 from by rw [hg1def]; simp [FactorGraph.empty]]
    rw [← hg2def, hinv, horig]
    have hn2 : g2.nodes = nodes1 := by rw [hg2def]; exact hse.1
    have ho2 : g2.owned = g.nodes.map f := by
      rw [hg2def, hse.2.1]
    rw [hn2, ho2, happ1]
  · intro e' he'
    have hmem := hse.2.2 e' ?_
    · rcases hmem with h | h
      · rw [hg1def] at h
        simp at h
      · exact hre e' h
    · show e' ∈ g2.edges
      exact he'

/-! ### Supporting lemmas for the claims -/

theorem bind_ok_inv (x : Except PyErr γ) (k : γ → Except PyErr δ) (b : δ)
    (h : (x >>= k) = .ok b) : ∃ a, x = .ok a ∧ k a = .ok b := by
  cases x with
  | error e => exact Except.noConfusion h
  | ok a => exact ⟨a, rfl, h⟩

theorem bip_mapping_ok_inv [DecidableEq α] (g : NxGraph α) (m : List (α × FGNode α))
    (h : bip_mapping g = .ok m) :
    (∀ n ∈ g.nodes, (g.bipartite n).isSome) ∧ m = bipDict g := by
  by_cases hall : ∀ n ∈ g.nodes, (g.bipartite n).isSome
  · rw [bip_mapping_ok g hall] at h
    exact ⟨hall, (Except.ok.inj h).symm⟩
  · push_neg at hall
    rcases hall with ⟨n, hn, hmiss⟩
    rw [bip_mapping_error g ⟨n, hn, Option.not_isSome_iff_eq_none.mp hmiss⟩] at h
    exact Except.noConfusion h

theorem set_edges_keyMem_mono [DecidableEq β] :
    ∀ (es : List (β × β)) (g : FactorGraph β ω) (x : β),
    keyMem g.nodes x → keyMem (g.set_edges es).nodes x := by
  intro es
  induction es with
  | nil => exact fun g x hx => hx
  | cons e rest ih =>
    intro g x hx
    show keyMem ((g.set_edge e.1 e.2).set_edges rest).nodes x
    apply ih
    show keyMem (ensureNode (ensureNode g.nodes e.1) e.2) x
    rw [keyMem_ensureNode, keyMem_ensureNode]
    exact Or.inl (Or.inl hx)

theorem mem_loopEdges (es : List (FGNode α × FGNode α)) (x : FGNode α × FGNode α)
    (h : x ∈ loopEdges es) : ∃ e ∈ es, ∃ k, k < es.length ∧
      (x = (e.1, FGNode.fnode k) ∨ x = (FGNode.fnode k, e.2)) := by
  induction es with
  | nil => simp [loopEdges_nil] at h
  | cons e rest ih =>
    rw [loopEdges_cons] at h
    rcases List.mem_cons.mp h with h1 | h1
    · exact ⟨e, List.mem_cons_self e rest, rest.length,
        by rw [List.length_cons]; omega, Or.inl h1⟩
    · rcases List.mem_cons.mp h1 with h2 | h2
      · exact ⟨e, List.mem_cons_self e rest, rest.length,
          by rw [List.length_cons]; omega, Or.inr h2⟩
      · rcases ih h2 with ⟨e0, he0, k, hk, hor⟩
        exact ⟨e0, List.mem_cons_of_mem e he0, k,
          by rw [List.length_cons]; omega, hor⟩

theorem mem_typedFilter [DecidableEq β] (l : List (β × NodeData ω)) (t : NodeType)
    (n : β) : n ∈ (l.filter (fun p => decide (p.2.type = some t))).map Prod.fst
      ↔ ∃ p ∈ l, p.1 = n ∧ p.2.type = some t := by
  rw [List.mem_map]
  constructor
  · rintro ⟨p, hp, hn⟩
    rw [List.mem_filter] at hp
    exact ⟨p, hp.1, hn, of_decide_eq_true hp.2⟩
  · rintro ⟨p, hp, hn, ht⟩
    exact ⟨p, List.mem_filter.mpr ⟨hp, decide_eq_true ht⟩, hn⟩

/-! ### The claims -/

/-- C4: for every input graph and either mode, when `convert_to_fg`
returns, the caller's input graph is unchanged — the pair's first
component (the input object as the call leaves it) is exactly the input;
the returned factor graph is a separate, newly built value. -/
theorem claim_C4 [DecidableEq α] (g : NxGraph α) (b : Bool)
    (p : NxGraph α × FactorGraph (FGNode α) α) (h : convert_to_fg g b = .ok p) :
    p.1 = g := by
  unfold convert_to_fg at h
  cases hb : convert_body g b with
  | error e =>
    rw [hb] at h
    exact Except.noConfusion h
  | ok fg =>
    rw [hb] at h
    have h2 : Except.ok (g, fg) = Except.ok p := h
    rw [← Except.ok.inj h2]

/-- Witness for C4 at the empty graph. -/
theorem claim_C4_witness :
    convert_to_fg exEmpty false = .ok (exEmpty, FactorGraph.empty)
    ∧ ((exEmpty, FactorGraph.empty) : NxGraph Nat × FactorGraph (FGNode Nat) Nat).1
        = exEmpty :=
  ⟨rfl, claim_C4 exEmpty false (exEmpty, FactorGraph.empty) rfl⟩

/-- C8: bipartite-mode conversion of a graph with a node lacking the
`'bipartite'` attribute raises `KeyError` (the missing-label condition)
instead of silently defaulting the node to a part. -/
theorem claim_C8 [DecidableEq α] (g : NxGraph α)
    (h : ∃ n ∈ g.nodes, g.bipartite n = none) :
    convert_to_fg g true = .error (.keyError "bipartite") := by
  have hb : bip_mapping g = .error (.keyError "bipartite") := bip_mapping_error g h
  have hc : convert_bip g
      = (bip_mapping g >>= fun m =>
          ((FactorGraph.empty : FactorGraph (FGNode α) α).set_nodes (FGNode.pytype g.ntype)
            (relabel_nodes g (mapApply m)).nodes >>= fun fg =>
          setOriginAll (fg.set_edges (relabel_nodes g (mapApply m)).edges)
            (invertDict m))) := rfl
  unfold convert_to_fg
  rw [show convert_body g true = convert_bip g from rfl, hc, hb]
  rfl

/-- Witness for C8 at a one-node graph without the label. -/
theorem claim_C8_witness :
    (∃ n ∈ exNoLabel.nodes, exNoLabel.bipartite n = none)
    ∧ convert_to_fg exNoLabel true = .error (.keyError "bipartite") :=
  ⟨⟨5, by decide, rfl⟩, claim_C8 exNoLabel ⟨5, by decide, rfl⟩⟩

/-- C6: `set_node` on a node whose `.type` is set succeeds, stamps the
node's owning-graph back-reference, and stores the node with its `'type'`
attribute plus the supplied keyword attributes; on an already present node
it merges attributes instead of raising, leaving the node count unchanged
(a fresh node grows the count by one). -/
theorem claim_C6 [DecidableEq β] (g : FactorGraph β ω) (ty : β → Option NodeType)
    (n : β) (ats : List (String × String)) (t : NodeType) (h : ty n = some t) :
    ∃ g', g.set_node ty n ats = .ok g'
      ∧ n ∈ g'.owned
      ∧ (∃ d, lookupNode g'.nodes n = some d ∧ d.type = some t
          ∧ (¬ g.hasNode n → d = { type := some t, origin := none, extra := pyDictOf ats })
          ∧ (∀ d0, lookupNode g.nodes n = some d0 →
              d = { type := some t, origin := d0.origin, extra := dictUpdates d0.extra ats }))
      ∧ (g.hasNode n → g'.nodes.length = g.nodes.length)
      ∧ (¬ g.hasNode n → g'.nodes.length = g.nodes.length + 1) := by
  refine ⟨_, set_node_eq_ok ty g n ats t h, ?_, ?_, ?_, ?_⟩
  · show n ∈ g.owned ++ [n]
    exact List.mem_append.mpr (Or.inr (List.mem_singleton.mpr rfl))
  · by_cases hm : g.hasNode n
    · rcases Option.isSome_iff_exists.mp ((lookupNode_isSome g.nodes n).mpr hm)
        with ⟨d0, hd0⟩
      refine ⟨{ type := some t, origin := d0.origin, extra := dictUpdates d0.extra ats },
        lookup_insertTyped_self_of_mem g.nodes n t ats d0 hd0, rfl, ?_, ?_⟩
      · intro hc
        exact absurd hm hc
      · intro d1 hd1
        rw [hd0] at hd1
        rw [Option.some.inj hd1]
    · refine ⟨{ type := some t, origin := none, extra := pyDictOf ats },
        lookup_insertTyped_self_of_not_mem g.nodes n t ats hm, rfl, fun _ => rfl, ?_⟩
      intro d1 hd1
      rw [(lookupNode_eq_none g.nodes n).mpr hm] at hd1
      exact Option.noConfusion hd1
  · intro hm
    show (insertTyped g.nodes n t ats).length = g.nodes.length
    exact length_insertTyped_of_mem g.nodes n t ats hm
  · intro hm
    show (insertTyped g.nodes n t ats).length = g.nodes.length + 1
    rw [insertTyped_of_not_mem g.nodes n t ats hm, List.length_append]
    rfl

/-- Witness for C6: inserting a fresh variable node with one keyword
attribute into the empty factor graph. -/
theorem claim_C6_witness :
    (FGNode.pytype (fun _ : Nat => (none : Option NodeType)) (FGNode.vnode 0)
      = some NodeType.variable_node)
    ∧ (∃ g', (FactorGraph.empty : FactorGraph (FGNode Nat) Nat).set_node
          (FGNode.pytype (fun _ : Nat => (none : Option NodeType))) (FGNode.vnode 0)
          [("color", "red")] = .ok g'
      ∧ FGNode.vnode 0 ∈ g'.owned
      ∧ (∃ d, lookupNode g'.nodes (FGNode.vnode 0) = some d
          ∧ d.type = some NodeType.variable_node
          ∧ (¬ (FactorGraph.empty : FactorGraph (FGNode Nat) Nat).hasNode (FGNode.vnode 0) →
              d = { type := some NodeType.variable_node, origin := none,
                    extra := pyDictOf [("color", "red")] })
          ∧ (∀ d0, lookupNode
                (FactorGraph.empty : FactorGraph (FGNode Nat) Nat).nodes (FGNode.vnode 0)
                  = some d0 →
              d = { type := some NodeType.variable_node, origin := d0.origin,
                    extra := dictUpdates d0.extra [("color", "red")] }))
      ∧ ((FactorGraph.empty : FactorGraph (FGNode Nat) Nat).hasNode (FGNode.vnode 0) →
          g'.nodes.length = (FactorGraph.empty : FactorGraph (FGNode Nat) Nat).nodes.length)
      ∧ (¬ (FactorGraph.empty : FactorGraph (FGNode Nat) Nat).hasNode (FGNode.vnode 0) →
          g'.nodes.length
            = (FactorGraph.empty : FactorGraph (FGNode Nat) Nat).nodes.length + 1)) :=
  ⟨rfl, claim_C6 FactorGraph.empty (FGNode.pytype (fun _ : Nat => (none : Option NodeType)))
    (FGNode.vnode 0) [("color", "red")] NodeType.variable_node rfl⟩

/-- C9: `set_edge` with an endpoint never inserted through `set_node`
succeeds, silently auto-creating that endpoint without a `'type'`
attribute, after which `get_vnodes` and `get_fnodes` raise `KeyError`
instead of returning a filtered list. -/
theorem claim_C9 [DecidableEq β] (g : FactorGraph β ω) (s t n : β)
    (hn : n = s ∨ n = t) (habs : ¬ g.hasNode n) :
    (g.set_edge s t).hasNode n
      ∧ (g.set_edge s t).typeAttr n = some none
      ∧ (∃ e ∈ (g.set_edge s t).edges, sameEdge e (s, t))
      ∧ (g.set_edge s t).get_vnodes = .error (.keyError "type")
      ∧ (g.set_edge s t).get_fnodes = .error (.keyError "type") := by
  have hlk : lookupNode (g.set_edge s t).nodes n
      = some { type := none, origin := none, extra := [] } := by
    show lookupNode (ensureNode (ensureNode g.nodes s) t) n
      = some { type := none, origin := none, extra := [] }
    rcases hn with rfl | rfl
    · exact lookup_ensureNode_of_found _ t n _
        (lookup_ensureNode_self_of_not_mem g.nodes n habs)
    · by_cases hns : n = s
      · subst hns
        exact lookup_ensureNode_of_found _ n n _
          (lookup_ensureNode_self_of_not_mem g.nodes n habs)
      · apply lookup_ensureNode_self_of_not_mem
        rw [keyMem_ensureNode]
        rintro (hc | hc)
        · exact habs hc
        · exact hns hc
  have hmem : ((n, { type := none, origin := none, extra := [] })
      : β × NodeData ω) ∈ (g.set_edge s t).nodes := lookupNode_mem _ n _ hlk
  refine ⟨?_, ?_, ?_, ?_, ?_⟩
  · rw [FactorGraph.hasNode, ← lookupNode_isSome, hlk]
    rfl
  · unfold FactorGraph.typeAttr
    rw [hlk]
    rfl
  · show ∃ e ∈ (if ∃ e ∈ g.edges, sameEdge e (s, t) then g.edges
      else g.edges ++ [(s, t)]), sameEdge e (s, t)
    by_cases hc : ∃ e ∈ g.edges, sameEdge e (s, t)
    · rw [if_pos hc]
      exact hc
    · rw [if_neg hc]
      exact ⟨(s, t), List.mem_append.mpr (Or.inr (List.mem_singleton.mpr rfl)),
        Or.inl ⟨rfl, rfl⟩⟩
  · exact typedNodes_error _ _ ⟨_, hmem, rfl⟩
  · exact typedNodes_error _ _ ⟨_, hmem, rfl⟩

/-- Witness for C9: an edge inserted into the empty factor graph. -/
theorem claim_C9_witness :
    ((FGNode.vnode 0 : FGNode Nat) = FGNode.vnode 0 ∨
      (FGNode.vnode 0 : FGNode Nat) = FGNode.fnode 0)
    ∧ ¬ (FactorGraph.empty : FactorGraph (FGNode Nat) Nat).hasNode (FGNode.vnode 0)
    ∧ (((FactorGraph.empty : FactorGraph (FGNode Nat) Nat).set_edge (FGNode.vnode 0)
          (FGNode.fnode 0)).hasNode (FGNode.vnode 0)
      ∧ ((FactorGraph.empty : FactorGraph (FGNode Nat) Nat).set_edge (FGNode.vnode 0)
          (FGNode.fnode 0)).typeAttr (FGNode.vnode 0) = some none
      ∧ (∃ e ∈ ((FactorGraph.empty : FactorGraph (FGNode Nat) Nat).set_edge (FGNode.vnode 0)
          (FGNode.fnode 0)).edges, sameEdge e (FGNode.vnode 0, FGNode.fnode 0))
      ∧ ((FactorGraph.empty : FactorGraph (FGNode Nat) Nat).set_edge (FGNode.vnode 0)
          (FGNode.fnode 0)).get_vnodes = .error (.keyError "type")
      ∧ ((FactorGraph.empty : FactorGraph (FGNode Nat) Nat).set_edge (FGNode.vnode 0)
          (FGNode.fnode 0)).get_fnodes = .error (.keyError "type")) :=
  ⟨Or.inl rfl, by decide,
    claim_C9 FactorGraph.empty (FGNode.vnode 0) (FGNode.fnode 0) (FGNode.vnode 0)
      (Or.inl rfl) (by decide)⟩

/-- C7: on a factor graph whose stored nodes all carry a `'type'`
attribute, `get_vnodes` returns exactly the variable-typed nodes and
`get_fnodes` exactly the factor-typed ones; the two lists are disjoint and
together cover every stored node. -/
theorem claim_C7 [DecidableEq β] (g : FactorGraph β ω)
    (hT : ∀ p ∈ g.nodes, (p.2.type).isSome)
    (hnd : (g.nodes.map Prod.fst).Nodup) :
    ∃ vs fs, g.get_vnodes = .ok vs ∧ g.get_fnodes = .ok fs
      ∧ (∀ n, n ∈ vs ↔ g.typeAttr n = some (some NodeType.variable_node))
      ∧ (∀ n, n ∈ fs ↔ g.typeAttr n = some (some NodeType.factor_node))
      ∧ (∀ n ∈ vs, n ∉ fs)
      ∧ (∀ p ∈ g.nodes, p.1 ∈ vs ∨ p.1 ∈ fs) := by
  have hchar : ∀ (t : NodeType) (n : β),
      n ∈ (g.nodes.filter (fun p => decide (p.2.type = some t))).map Prod.fst
        ↔ g.typeAttr n = some (some t) := by
    intro t n
    rw [mem_typedFilter]
    constructor
    · rintro ⟨p, hp, hn, ht⟩
      unfold FactorGraph.typeAttr
      have : lookupNode g.nodes n = some p.2 := by
        apply mem_lookupNode_of_nodup _ _ _ hnd
        rw [← hn]
        exact hp
      rw [this]
      show some (p.2.type) = some (some t)
      rw [ht]
    · intro h
      unfold FactorGraph.typeAttr at h
      cases hl : lookupNode g.nodes n with
      | none => rw [hl] at h; exact Option.noConfusion h
      | some d =>
        rw [hl] at h
        have hd : d.type = some t := Option.some.inj h
        exact ⟨(n, d), lookupNode_mem _ _ _ hl, rfl, hd⟩
  refine ⟨_, _, typedNodes_ok NodeType.variable_node g.nodes hT,
    typedNodes_ok NodeType.factor_node g.nodes hT,
    hchar NodeType.variable_node, hchar NodeType.factor_node, ?_, ?_⟩
  · intro n hv hf
    have h1 := (hchar NodeType.variable_node n).mp hv
    have h2 := (hchar NodeType.factor_node n).mp hf
    rw [h1] at h2
    have := Option.some.inj h2
    exact NodeType.noConfusion (Option.some.inj this)
  · intro p hp
    rcases Option.isSome_iff_exists.mp (hT p hp) with ⟨t, ht⟩
    have hlk : lookupNode g.nodes p.1 = some p.2 :=
      mem_lookupNode_of_nodup _ _ _ hnd hp
    cases t with
    | variable_node =>
      left
      rw [hchar]
      unfold FactorGraph.typeAttr
      rw [hlk]
      show some (p.2.type) = some (some NodeType.variable_node)
      rw [ht]
    | factor_node =>
      right
      rw [hchar]
      unfold FactorGraph.typeAttr
      rw [hlk]
      show some (p.2.type) = some (some NodeType.factor_node)
      rw [ht]

/-- Witness for C7 at a two-node factor graph (one variable, one factor). -/
theorem claim_C7_witness :
    (∀ p ∈ exFG7.nodes, (p.2.type).isSome)
    ∧ (∃ vs fs, exFG7.get_vnodes = .ok vs ∧ exFG7.get_fnodes = .ok fs
      ∧ (∀ n, n ∈ vs ↔ exFG7.typeAttr n = some (some NodeType.variable_node))
      ∧ (∀ n, n ∈ fs ↔ exFG7.typeAttr n = some (some NodeType.factor_node))
      ∧ (∀ n ∈ vs, n ∉ fs)
      ∧ (∀ p ∈ exFG7.nodes, p.1 ∈ vs ∨ p.1 ∈ fs)) :=
  ⟨by decide, claim_C7 exFG7 (by decide) (by decide)⟩

/-- C2: non-bipartite conversion of a simple graph (distinct nodes,
edge endpoints among the nodes, no self-loops, no repeated undirected
edge) with `N` nodes and `E` edges yields exactly `N` variable nodes,
`E` factor nodes, and `2 * E` edges. -/
theorem claim_C2 [DecidableEq α] (g : NxGraph α) (hnd : g.nodes.Nodup)
    (hcl : g.edgesClosed) (hsl : g.noSelfLoops) (hpar : g.noParallel) :
    ∃ fg, convert_to_fg g false = .ok (g, fg)
      ∧ (fg.nodes.filter (fun p =>
          decide (p.2.type = some NodeType.variable_node))).length = g.nodes.length
      ∧ (fg.nodes.filter (fun p =>
          decide (p.2.type = some NodeType.factor_node))).length = g.edges.length
      ∧ fg.edges.length = 2 * g.edges.length := by
  have hp := nonbip_pipeline_spec g hnd hcl hsl hpar
  refine ⟨{ nodes := g.nodes.map (fun a => (mapApply (nonbip_mapping g) a,
              { type := some NodeType.variable_node, origin := some a, extra := [] }))
              ++ fnodeEntries g.edges.length,
            edges := loopEdges (g.edges.map (fun e =>
              (mapApply (nonbip_mapping g) e.1, mapApply (nonbip_mapping g) e.2))),
            owned := g.nodes.map (mapApply (nonbip_mapping g))
              ++ fnodeKeys g.edges.length }, ?_, ?_, ?_, ?_⟩
  · unfold convert_to_fg
    rw [show convert_body g false = convert_nonbip g from rfl, hp]
    rfl
  · show (List.filter _ (g.nodes.map (fun a => (mapApply (nonbip_mapping g) a,
      { type := some NodeType.variable_node, origin := some a, extra := [] }))
        ++ fnodeEntries g.edges.length)).length = g.nodes.length
    rw [List.filter_append, List.length_append]
    have h1 : (List.filter (fun p : FGNode α × NodeData α =>
        decide (p.2.type = some NodeType.variable_node))
        (g.nodes.map (fun a => (mapApply (nonbip_mapping g) a,
          { type := some NodeType.variable_node, origin := some a, extra := [] })))).length
        = g.nodes.length := by
      have hall : ∀ q ∈ g.nodes.map (fun a => (mapApply (nonbip_mapping g) a,
          ({ type := some NodeType.variable_node, origin := some a,
             extra := [] } : NodeData α))),
          decide (q.2.type = some NodeType.variable_node) = true := by
        intro q hq
        rcases List.mem_map.mp hq with ⟨a, _, rfl⟩
        rfl
      rw [List.filter_eq_self.mpr hall, List.length_map]
    have h2 : (List.filter (fun p : FGNode α × NodeData α =>
        decide (p.2.type = some NodeType.variable_node))
        (fnodeEntries (α := α) g.edges.length)).length = 0 := by
      rw [List.length_eq_zero]
      rw [List.filter_eq_nil_iff]
      intro p hp2
      unfold fnodeEntries at hp2
      rcases List.mem_map.mp hp2 with ⟨k, _, rfl⟩
      exact fun h => Bool.noConfusion h
    rw [h1, h2]
    omega
  · show (List.filter _ (g.nodes.map (fun a => (mapApply (nonbip_mapping g) a,
      { type := some NodeType.variable_node, origin := some a, extra := [] }))
        ++ fnodeEntries g.edges.length)).length = g.edges.length
    rw [List.filter_append, List.length_append]
    have h1 : (List.filter (fun p : FGNode α × NodeData α =>
        decide (p.2.type = some NodeType.factor_node))
        (g.nodes.map (fun a => (mapApply (nonbip_mapping g) a,
          { type := some NodeType.variable_node, origin := some a, extra := [] })))).length
        = 0 := by
      rw [List.length_eq_zero, List.filter_eq_nil_iff]
      intro p hp2
      rcases List.mem_map.mp hp2 with ⟨a, _, rfl⟩
      exact fun h => Bool.noConfusion h
    have h2 : (List.filter (fun p : FGNode α × NodeData α =>
        decide (p.2.type = some NodeType.factor_node))
        (fnodeEntries (α := α) g.edges.length)).length = g.edges.length := by
      have hall : ∀ q ∈ fnodeEntries (α := α) g.edges.length,
          decide (q.2.type = some NodeType.factor_node) = true := by
        intro q hq
        unfold fnodeEntries at hq
        rcases List.mem_map.mp hq with ⟨k, _, rfl⟩
        rfl
      rw [List.filter_eq_self.mpr hall, fnodeEntries_length]
    rw [h1, h2]
    omega
  · show (loopEdges (g.edges.map (fun e => (mapApply (nonbip_mapping g) e.1,
      mapApply (nonbip_mapping g) e.2)))).length = 2 * g.edges.length
    rw [loopEdges_length, List.length_map]

/-- Witness for C2 at the three-node path (spec Scenario A). -/
theorem claim_C2_witness :
    exPath.nodes.Nodup ∧ exPath.edgesClosed ∧ exPath.noSelfLoops ∧ exPath.noParallel
    ∧ (∃ fg, convert_to_fg exPath false = .ok (exPath, fg)
      ∧ (fg.nodes.filter (fun p =>
          decide (p.2.type = some NodeType.variable_node))).length = exPath.nodes.length
      ∧ (fg.nodes.filter (fun p =>
          decide (p.2.type = some NodeType.factor_node))).length = exPath.edges.length
      ∧ fg.edges.length = 2 * exPath.edges.length) :=
  ⟨by decide, by decide, by decide, by decide,
    claim_C2 exPath (by decide) (by decide) (by decide) (by decide)⟩

/-- C3 counterexample: converting the single-edge graph 0 - 1 in
non-bipartite mode inserts a factor node that is present and typed but
carries no `'origin'` attribute, refuting "all new nodes ... get a label
'origin'". -/
theorem claim_C3_counterexample :
    (convert_to_fg exEdge false).toOption.map (fun p =>
      (p.2.originAttr (FGNode.fnode 0), p.2.typeAttr (FGNode.fnode 0)))
      = some (some none, some (some NodeType.factor_node)) := by decide

/-- C3 (corrected): in bipartite mode (under its stated 0/1-labelling
precondition) every stored node's `'origin'` attribute enumerates the
source nodes in order (a bijection onto the input's nodes); in
non-bipartite mode, on any simple input, this holds of the variable
nodes only, while every inserted factor node has no `'origin'`
attribute. -/
theorem claim_C3 [DecidableEq α] (g : NxGraph α)
    (hnd : g.nodes.Nodup) (hcl : g.edgesClosed)
    (hsl : g.noSelfLoops) (hpar : g.noParallel) :
    (g.labels01 → ∃ fg, convert_to_fg g true = .ok (g, fg)
      ∧ fg.nodes.map (fun p => p.2.origin) = g.nodes.map some)
    ∧ (∃ fg, convert_to_fg g false = .ok (g, fg)
      ∧ (fg.nodes.filter (fun p =>
          decide (p.2.type = some NodeType.variable_node))).map
          (fun p => p.2.origin) = g.nodes.map some
      ∧ ∀ p ∈ fg.nodes, p.2.type = some NodeType.factor_node →
          p.2.origin = none) := by
  constructor
  · intro hlab
    rcases bip_pipeline_spec g hnd hcl hlab with ⟨fg, hok, hnodes, _, _⟩
    refine ⟨fg, ?_, ?_⟩
    · unfold convert_to_fg
      rw [show convert_body g true = convert_bip g from rfl, hok]
      rfl
    · rw [hnodes, List.map_map]
      rfl
  · have hp := nonbip_pipeline_spec g hnd hcl hsl hpar
    refine ⟨{ nodes := g.nodes.map (fun a => (mapApply (nonbip_mapping g) a,
                { type := some NodeType.variable_node, origin := some a, extra := [] }))
                ++ fnodeEntries g.edges.length,
              edges := loopEdges (g.edges.map (fun e =>
                (mapApply (nonbip_mapping g) e.1, mapApply (nonbip_mapping g) e.2))),
              owned := g.nodes.map (mapApply (nonbip_mapping g))
                ++ fnodeKeys g.edges.length }, ?_, ?_, ?_⟩
    · unfold convert_to_fg
      rw [show convert_body g false = convert_nonbip g from rfl, hp]
      rfl
    · show ((List.filter _ (g.nodes.map (fun a => (mapApply (nonbip_mapping g) a,
        { type := some NodeType.variable_node, origin := some a, extra := [] }))
          ++ fnodeEntries g.edges.length)).map _) = g.nodes.map some
      rw [List.filter_append]
      have hall : ∀ q ∈ g.nodes.map (fun a => (mapApply (nonbip_mapping g) a,
          ({ type := some NodeType.variable_node, origin := some a,
             extra := [] } : NodeData α))),
          decide (q.2.type = some NodeType.variable_node) = true := by
        intro q hq
        rcases List.mem_map.mp hq with ⟨a, _, rfl⟩
        rfl
      rw [List.filter_eq_self.mpr hall]
      have hnil : List.filter (fun p : FGNode α × NodeData α =>
          decide (p.2.type = some NodeType.variable_node))
          (fnodeEntries (α := α) g.edges.length) = [] := by
        rw [List.filter_eq_nil_iff]
        intro p hp2
        unfold fnodeEntries at hp2
        rcases List.mem_map.mp hp2 with ⟨k, _, rfl⟩
        exact fun h => Bool.noConfusion h
      rw [hnil, List.append_nil, List.map_map]
      rfl
    · intro p hp2 hty
      rcases List.mem_append.mp hp2 with hmem | hmem
      · rcases List.mem_map.mp hmem with ⟨a, _, rfl⟩
        exact absurd hty (by intro h; exact NodeType.noConfusion (Option.some.inj h))
      · unfold fnodeEntries at hmem
        rcases List.mem_map.mp hmem with ⟨k, _, rfl⟩
        rfl

/-- Witness for C3 at the labelled graph of spec Scenario B. -/
theorem claim_C3_witness :
    exBip.nodes.Nodup ∧ exBip.edgesClosed ∧ exBip.labels01
    ∧ exBip.noSelfLoops ∧ exBip.noParallel
    ∧ ((∃ fg, convert_to_fg exBip true = .ok (exBip, fg)
      ∧ fg.nodes.map (fun p => p.2.origin) = exBip.nodes.map some)
    ∧ (∃ fg, convert_to_fg exBip false = .ok (exBip, fg)
      ∧ (fg.nodes.filter (fun p =>
          decide (p.2.type = some NodeType.variable_node))).map
          (fun p => p.2.origin) = exBip.nodes.map some
      ∧ ∀ p ∈ fg.nodes, p.2.type = some NodeType.factor_node →
          p.2.origin = none)) :=
  ⟨by decide, by decide, by decide, by decide, by decide,
    (claim_C3 exBip (by decide) (by decide) (by decide) (by decide)).1 (by decide),
    (claim_C3 exBip (by decide) (by decide) (by decide) (by decide)).2⟩

/-- C5 counterexample: with two `0`-labelled nodes 10, 11 (in that
iteration order), `obj_box.pop()` takes from the end of the box, so the
first node gets `vnode(1)` and the second gets `vnode(0)`; the converted
graph records node 11, not 10, as the origin of `vnode(0)`. -/
theorem claim_C5_counterexample :
    bipFilter exTwoV.bipartite 0 exTwoV.nodes = .ok [10, 11]
    ∧ bip_mapping exTwoV = .ok (bipDict exTwoV)
    ∧ mapApply (bipDict exTwoV) 10 = FGNode.vnode 1
    ∧ mapApply (bipDict exTwoV) 11 = FGNode.vnode 0
    ∧ (convert_to_fg exTwoV true).toOption.map
        (fun p => p.2.originAttr (FGNode.vnode 0)) = some (some (some 11)) := by
  decide

/-- C5 (corrected): the bipartite relabelling maps the `0`-part node at
iteration position `k` to `vnode(|vn| - 1 - k)` and the `1`-part node at
position `k` to `fnode(|fn| - 1 - k)` — the factory indices run in
reverse iteration order, because `obj_box.pop()` pops from the end. -/
theorem claim_C5 [DecidableEq α] (g : NxGraph α) (hnd : g.nodes.Nodup)
    (hlab : g.labels01) :
    bip_mapping g = .ok (bipDict g)
    ∧ (∀ k (h : k < (vnList g).length),
        mapApply (bipDict g) ((vnList g).get ⟨k, h⟩)
          = FGNode.vnode ((vnList g).length - 1 - k))
    ∧ (∀ k (h : k < (fnList g).length),
        mapApply (bipDict g) ((fnList g).get ⟨k, h⟩)
          = FGNode.fnode ((fnList g).length - 1 - k)) := by
  have hsome : ∀ n ∈ g.nodes, (g.bipartite n).isSome := by
    intro n hn
    rcases hlab n hn with h | h <;> rw [h] <;> rfl
  refine ⟨bip_mapping_ok g hsome, ?_, ?_⟩
  · intro k h
    exact mapApply_bipDict_vn g hnd k h
  · intro k h
    exact mapApply_bipDict_fn g hnd k h

/-- Witness for C5 at the labelled graph of spec Scenario B. -/
theorem claim_C5_witness :
    exBip.nodes.Nodup ∧ exBip.labels01
    ∧ (bip_mapping exBip = .ok (bipDict exBip)
      ∧ (∀ k (h : k < (vnList exBip).length),
          mapApply (bipDict exBip) ((vnList exBip).get ⟨k, h⟩)
            = FGNode.vnode ((vnList exBip).length - 1 - k))
      ∧ (∀ k (h : k < (fnList exBip).length),
          mapApply (bipDict exBip) ((fnList exBip).get ⟨k, h⟩)
            = FGNode.fnode ((fnList exBip).length - 1 - k))) :=
  ⟨by decide, by decide, claim_C5 exBip (by decide) (by decide)⟩

theorem lookupNode_map_of_ne [DecidableEq β] (l : List (β × NodeData ω)) (n : β)
    (h : ∀ p ∈ l, p.1 ≠ n) : lookupNode l n = none := by
  induction l with
  | nil => rfl
  | cons p rest ih =>
    rw [lookupNode_cons, if_neg (h p (List.mem_cons_self p rest))]
    exact ih (fun q hq => h q (List.mem_cons_of_mem p hq))

theorem lookupNode_fnodeEntries [DecidableEq α] (m k : Nat) (h : k < m) :
    lookupNode (fnodeEntries (α := α) m) (FGNode.fnode k)
      = some { type := some NodeType.factor_node, origin := none, extra := [] } := by
  induction m with
  | zero => omega
  | succ m ih =>
    rw [fnodeEntries_succ, lookupNode_cons]
    by_cases hk : k = m
    · subst hk
      simp
    · rw [if_neg (fun hc => hk (FGNode.fnode.inj hc).symm)]
      exact ih (by omega)

theorem nonbip_partition [DecidableEq α] (g : NxGraph α) (hnd : g.nodes.Nodup)
    (hcl : g.edgesClosed) : partitionOk (nonbipFG g) := by
  set f : α → FGNode α := mapApply (nonbip_mapping g) with hf
  have hmapform : g.nodes.map f = (List.range g.nodes.length).reverse.map FGNode.vnode :=
    map_nonbip g hnd
  have hshape : ∀ a ∈ g.nodes, ∃ i, f a = FGNode.vnode i := by
    intro a ha
    have hm : f a ∈ g.nodes.map f := List.mem_map.mpr ⟨a, ha, rfl⟩
    rw [hmapform] at hm
    rcases List.mem_map.mp hm with ⟨i, _, hi⟩
    exact ⟨i, hi.symm⟩
  have hinj : ∀ a ∈ g.nodes, ∀ b ∈ g.nodes, f a = f b → a = b := by
    intro a ha b hb hab
    rcases List.mem_iff_getElem.mp ha with ⟨i, hi, hia⟩
    rcases List.mem_iff_getElem.mp hb with ⟨j, hj, hjb⟩
    rw [← hia, ← hjb] at hab ⊢
    rw [hf, mapApply_nonbip g hnd i hi, mapApply_nonbip g hnd j hj] at hab
    have hij := FGNode.vnode.inj hab
    have hijeq : i = j := by omega
    subst hijeq
    rfl
  have hnodes : (nonbipFG g).nodes = g.nodes.map (fun a => (f a,
      { type := some NodeType.variable_node, origin := some a, extra := [] }))
      ++ fnodeEntries g.edges.length := rfl
  have hlookV : ∀ a ∈ g.nodes, lookupNode (nonbipFG g).nodes (f a)
      = some { type := some NodeType.variable_node, origin := some a, extra := [] } := by
    intro a ha
    rw [hnodes]
    apply lookupNode_append_left
    exact lookupNode_map_inj g.nodes f
      (fun a => { type := some NodeType.variable_node, origin := some a, extra := [] })
      hinj a ha
  have hlookF : ∀ k, k < g.edges.length → lookupNode (nonbipFG g).nodes (FGNode.fnode k)
      = some { type := some NodeType.factor_node, origin := none, extra := [] } := by
    intro k hk
    rw [hnodes, lookupNode_append_right]
    · exact lookupNode_fnodeEntries _ k hk
    · apply lookupNode_map_of_ne
      intro q hq
      rcases List.mem_map.mp hq with ⟨a, ha, rfl⟩
      rcases hshape a ha with ⟨i, hi⟩
      show f a ≠ FGNode.fnode k
      rw [hi]
      exact fun hc => FGNode.noConfusion hc
  constructor
  · intro p hp
    rw [hnodes] at hp
    rcases List.mem_append.mp hp with hm | hm
    · rcases List.mem_map.mp hm with ⟨a, _, rfl⟩
      exact Or.inl rfl
    · unfold fnodeEntries at hm
      rcases List.mem_map.mp hm with ⟨k, _, rfl⟩
      exact Or.inr rfl
  · intro e' he'
    have he2 : e' ∈ loopEdges (g.edges.map (fun e => (f e.1, f e.2))) := he'
    rcases mem_loopEdges _ _ he2 with ⟨e, he, k, hk, hor⟩
    rw [List.length_map] at hk
    rcases List.mem_map.mp he with ⟨e0, he0, rfl⟩
    have hm1 : e0.1 ∈ g.nodes := (hcl e0 he0).1
    have hm2 : e0.2 ∈ g.nodes := (hcl e0 he0).2
    have htV1 : (nonbipFG g).typeAttr (f e0.1) = some (some NodeType.variable_node) := by
      unfold FactorGraph.typeAttr
      rw [hlookV e0.1 hm1]
      rfl
    have htV2 : (nonbipFG g).typeAttr (f e0.2) = some (some NodeType.variable_node) := by
      unfold FactorGraph.typeAttr
      rw [hlookV e0.2 hm2]
      rfl
    have htF : (nonbipFG g).typeAttr (FGNode.fnode k) = some (some NodeType.factor_node) := by
      unfold FactorGraph.typeAttr
      rw [hlookF k hk]
      rfl
    rcases hor with rfl | rfl
    · exact Or.inl ⟨htV1, htF⟩
    · exact Or.inr ⟨htF, htV2⟩

/-- C1: on a simple input, both conversion modes produce a factor graph
satisfying the partition invariant — every stored node is typed variable
or factor, and every stored edge joins one node of each type.  The
non-bipartite mode needs no further precondition; the bipartite mode
additionally assumes its stated preconditions, namely that every node is
labelled 0/1 and every input edge crosses the parts. -/
theorem claim_C1 [DecidableEq α] (g : NxGraph α) (hnd : g.nodes.Nodup)
    (hcl : g.edgesClosed) (hsl : g.noSelfLoops) (hpar : g.noParallel) :
    (g.labels01 → g.edgesCross →
      ∃ fg, convert_to_fg g true = .ok (g, fg) ∧ partitionOk fg)
    ∧ (∃ fg, convert_to_fg g false = .ok (g, fg) ∧ partitionOk fg) := by
  constructor
  · intro hlab hcross
    rcases bip_pipeline_spec g hnd hcl hlab with ⟨fg, hok, hnodes, _, hedges⟩
    have hinj := bipDict_inj g hnd
    have hlook : ∀ a ∈ g.nodes, lookupNode fg.nodes (mapApply (bipDict g) a)
        = some { type := FGNode.pytype g.ntype (mapApply (bipDict g) a),
                 origin := some a, extra := [] } := by
      intro a ha
      rw [hnodes]
      exact lookupNode_map_inj g.nodes (mapApply (bipDict g))
        (fun a => { type := FGNode.pytype g.ntype (mapApply (bipDict g) a),
                    origin := some a, extra := [] }) hinj a ha
    refine ⟨fg, ?_, ?_, ?_⟩
    · unfold convert_to_fg
      rw [show convert_body g true = convert_bip g from rfl, hok]
      rfl
    · intro p hp
      rw [hnodes] at hp
      rcases List.mem_map.mp hp with ⟨a, ha, rfl⟩
      rcases hlab a ha with h0 | h1
      · rcases vnList_shape g hnd a ha h0 with ⟨i, hi⟩
        left
        show FGNode.pytype g.ntype (mapApply (bipDict g) a) = some NodeType.variable_node
        rw [hi]
        rfl
      · rcases fnList_shape g hnd a ha h1 with ⟨i, hi⟩
        right
        show FGNode.pytype g.ntype (mapApply (bipDict g) a) = some NodeType.factor_node
        rw [hi]
        rfl
    · intro e' he'
      rcases hedges e' he' with ⟨e0, he0, h1, h2⟩
      have hm1 : e0.1 ∈ g.nodes := (hcl e0 he0).1
      have hm2 : e0.2 ∈ g.nodes := (hcl e0 he0).2
      have ht1 : fg.typeAttr e'.1
          = some (FGNode.pytype g.ntype (mapApply (bipDict g) e0.1)) := by
        unfold FactorGraph.typeAttr
        rw [h1, hlook e0.1 hm1]
        rfl
      have ht2 : fg.typeAttr e'.2
          = some (FGNode.pytype g.ntype (mapApply (bipDict g) e0.2)) := by
        unfold FactorGraph.typeAttr
        rw [h2, hlook e0.2 hm2]
        rfl
      rcases hcross e0 he0 with ⟨hc1, hc2⟩ | ⟨hc1, hc2⟩
      · left
        rcases vnList_shape g hnd e0.1 hm1 hc1 with ⟨i, hi⟩
        rcases fnList_shape g hnd e0.2 hm2 hc2 with ⟨j, hj⟩
        rw [hi] at ht1
        rw [hj] at ht2
        exact ⟨ht1, ht2⟩
      · right
        rcases fnList_shape g hnd e0.1 hm1 hc1 with ⟨i, hi⟩
        rcases vnList_shape g hnd e0.2 hm2 hc2 with ⟨j, hj⟩
        rw [hi] at ht1
        rw [hj] at ht2
        exact ⟨ht1, ht2⟩
  · have hp := nonbip_pipeline_spec g hnd hcl hsl hpar
    refine ⟨nonbipFG g, ?_, nonbip_partition g hnd hcl⟩
    unfold convert_to_fg
    rw [show convert_body g false = convert_nonbip g from rfl, hp]
    rfl

/-- Witness for C1 at the labelled bipartite graph of spec Scenario B. -/
theorem claim_C1_witness :
    exBip.nodes.Nodup ∧ exBip.edgesClosed ∧ exBip.noSelfLoops ∧ exBip.noParallel
    ∧ exBip.labels01 ∧ exBip.edgesCross
    ∧ ((∃ fg, convert_to_fg exBip true = .ok (exBip, fg) ∧ partitionOk fg)
      ∧ (∃ fg, convert_to_fg exBip false = .ok (exBip, fg) ∧ partitionOk fg)) :=
  ⟨by decide, by decide, by decide, by decide, by decide, by decide,
    (claim_C1 exBip (by decide) (by decide) (by decide) (by decide)).1
      (by decide) (by decide),
    (claim_C1 exBip (by decide) (by decide) (by decide) (by decide)).2⟩

theorem bip_pipeline_spec_gen [DecidableEq α] (g : NxGraph α)
    (hnd : g.nodes.Nodup) (hcl : g.edgesClosed)
    (hsome : ∀ n ∈ g.nodes, (g.bipartite n).isSome)
    (hty1 : ∀ n ∈ g.nodes.map (mapApply (bipDict g)),
      ((FGNode.pytype g.ntype) n).isSome) :
    ∃ fg, convert_bip g = .ok fg
      ∧ fg.nodes = g.nodes.map (fun a => (mapApply (bipDict g) a,
          { type := FGNode.pytype g.ntype (mapApply (bipDict g) a),
            origin := some a, extra := [] }))
      ∧ fg.owned = g.nodes.map (mapApply (bipDict g))
      ∧ (∀ e' ∈ fg.edges, ∃ e0 ∈ g.edges,
          e'.1 = mapApply (bipDict g) e0.1 ∧ e'.2 = mapApply (bipDict g) e0.2) := by
  set f : α → FGNode α := mapApply (bipDict g) with hf
  have hinj := bipDict_inj g hnd
  have hfnd : (g.nodes.map f).Nodup := List.Nodup.map_on hinj hnd
  have hrn : (relabel_nodes g f).nodes = g.nodes.map f := by
    unfold relabel_nodes
    exact pyDedup_of_nodup _ hfnd
  have hre : ∀ e' ∈ (relabel_nodes g f).edges, ∃ e0 ∈ g.edges,
      e'.1 = f e0.1 ∧ e'.2 = f e0.2 := by
    intro e' he'
    have hm := mem_dedupEdges _ e' he'
    rcases List.mem_map.mp hm with ⟨e0, he0, hfe⟩
    exact ⟨e0, he0, by rw [← hfe], by rw [← hfe]⟩
  have hg1 := set_nodes_spec (FGNode.pytype g.ntype)
    (FactorGraph.empty : FactorGraph (FGNode α) α) (g.nodes.map f)
    hty1 (fun n _ => keyMem_nil n) hfnd
  set nodes1 : List (FGNode α × NodeData α) := g.nodes.map (fun a =>
    (f a, { type := FGNode.pytype g.ntype (f a), origin := none, extra := [] }))
    with hnodes1
  have hentry : (g.nodes.map f).map (fun n => ((n,
      { type := FGNode.pytype g.ntype n, origin := none, extra := [] })
        : FGNode α × NodeData α)) = nodes1 := by
    rw [List.map_map, hnodes1]
    rfl
  rw [hentry] at hg1
  have hkeys1 : nodes1.map Prod.fst = g.nodes.map f := by
    rw [hnodes1, List.map_map]
    rfl
  set g1 : FactorGraph (FGNode α) α :=
    { nodes := nodes1, edges := [], owned := g.nodes.map f } with hg1def
  have hse := set_edges_parts (relabel_nodes g f).edges g1 ?hend
  case hend =>
    intro e he
    rcases hre e he with ⟨e0, he0, h1, h2⟩
    constructor
    · show keyMem nodes1 e.1
      rw [keyMem_iff_mem_keys, hkeys1, h1]
      exact List.mem_map.mpr ⟨e0.1, (hcl e0 he0).1, rfl⟩
    · show keyMem nodes1 e.2
      rw [keyMem_iff_mem_keys, hkeys1, h2]
      exact List.mem_map.mpr ⟨e0.2, (hcl e0 he0).2, rfl⟩
  set g2 : FactorGraph (FGNode α) α := g1.set_edges (relabel_nodes g f).edges with hg2def
  have hentries : bipDict g = g.nodes.map (fun a => (a, f a)) := bipDict_entries_map g hnd
  have hvals : ((bipDict g).map Prod.snd).Nodup := by
    rw [hentries, List.map_map]
    show (g.nodes.map f).Nodup
    exact hfnd
  have hinv : invertDict (bipDict g) = g.nodes.map (fun a => (f a, a)) := by
    rw [invertDict_of_nodup_values _ hvals, hentries, List.map_map]
    rfl
  have hinvkeys : ((g.nodes.map (fun a => (f a, a))).map Prod.fst) = g.nodes.map f := by
    rw [List.map_map]
    rfl
  have horig := setOriginAll_spec (g.nodes.map (fun a => (f a, a))) g2
    (by rw [hinvkeys]; exact hfnd)
    (by
      intro q hq
      rcases List.mem_map.mp hq with ⟨a, ha, rfl⟩
      show keyMem g2.nodes (f a)
      rw [hg2def, hse.1]
      show keyMem nodes1 (f a)
      rw [keyMem_iff_mem_keys, hkeys1]
      exact List.mem_map.mpr ⟨a, ha, rfl⟩)
  have happ1 : applyOrigins (g.nodes.map (fun a => (f a, a))) nodes1
      = g.nodes.map (fun a => (f a,
          { type := FGNode.pytype g.ntype (f a), origin := some a, extra := [] })) := by
    rw [hnodes1]
    unfold applyOrigins
    rw [List.map_map]
    apply List.map_congr_left
    intro a ha
    have hlast : lastVal (g.nodes.map (fun a => (f a, a))) (f a) = some a := by
      apply lastVal_of_nodup
      · rw [hinvkeys]
        exact hfnd
      · exact List.mem_map.mpr ⟨a, ha, rfl⟩
    show ((match lastVal (g.nodes.map (fun a => (f a, a))) (f a) with
      | some w => (f a,
          { type := FGNode.pytype g.ntype (f a), origin := some w, extra := [] })
      | none => (f a,
          { type := FGNode.pytype g.ntype (f a), origin := none, extra := [] }))
      : FGNode α × NodeData α) = _
    rw [hlast]
  have hconv : convert_bip g
      = (bip_mapping g >>= fun m =>
          ((FactorGraph.empty : FactorGraph (FGNode α) α).set_nodes (FGNode.pytype g.ntype)
            (relabel_nodes g (mapApply m)).nodes >>= fun fg =>
          setOriginAll (fg.set_edges (relabel_nodes g (mapApply m)).edges)
            (invertDict m))) := rfl
  refine ⟨{ nodes := g.nodes.map (fun a =>
              (f a, { type := FGNode.pytype g.ntype (f a), origin := some a, extra := [] })),
            edges := g2.edges, owned := g.nodes.map f }, ?_, rfl, rfl, ?_⟩
  · rw [hconv, bip_mapping_ok g hsome, bind_ok, ← hf, hrn, hg1, bind_ok]
    rw [show ({ nodes := FactorGraph.empty.nodes ++ nodes1, edges := FactorGraph.empty.edges,
                owned := FactorGraph.empty.owned ++ g.nodes.map f } : FactorGraph (FGNode α) α)
      = g1 from by rw [hg1def]; simp [FactorGraph.empty]]
    rw [← hg2def, hinv, horig]
    have hn2 : g2.nodes = nodes1 := by rw [hg2def]; exact hse.1
    have ho2 : g2.owned = g.nodes.map f := by
      rw [hg2def, hse.2.1]
    rw [hn2, ho2, happ1]
  · intro e' he'
    have hmem := hse.2.2 e' ?_
    · rcases hmem with h | h
      · rw [hg1def] at h
        simp at h
      · exact hre e' h
    · show e' ∈ g2.edges
      exact he'

/-- C10: a node whose `'bipartite'` label is neither 0 nor 1 passes
through the bipartite conversion unreplaced: the relabelling dictionary
keeps it as itself, and when the conversion succeeds the factor graph
stores the original object, typed by that object's own `.type` attribute,
with itself as `'origin'`. -/
theorem claim_C10 [DecidableEq α] (g : NxGraph α) (hnd : g.nodes.Nodup)
    (hcl : g.edgesClosed)
    (hsome : ∀ n ∈ g.nodes, (g.bipartite n).isSome)
    (hty : ∀ n ∈ g.nodes.map (mapApply (bipDict g)),
      ((FGNode.pytype g.ntype) n).isSome)
    (a : α) (ha : a ∈ g.nodes) (b : Nat) (hb : g.bipartite a = some b)
    (hb0 : b ≠ 0) (hb1 : b ≠ 1) :
    mapApply (bipDict g) a = FGNode.orig a
    ∧ ∃ fg, convert_to_fg g true = .ok (g, fg)
      ∧ fg.typeAttr (FGNode.orig a) = some (g.ntype a)
      ∧ fg.originAttr (FGNode.orig a) = some (some a) := by
  have hpass : mapApply (bipDict g) a = FGNode.orig a := by
    apply mapApply_bipDict_other
    · rw [hb]
      intro hc
      exact hb0 (Option.some.inj hc)
    · rw [hb]
      intro hc
      exact hb1 (Option.some.inj hc)
  rcases bip_pipeline_spec_gen g hnd hcl hsome hty with ⟨fg, hok, hnodes, _, _⟩
  have hlook : lookupNode fg.nodes (mapApply (bipDict g) a)
      = some { type := FGNode.pytype g.ntype (mapApply (bipDict g) a),
               origin := some a, extra := [] } := by
    rw [hnodes]
    exact lookupNode_map_inj g.nodes (mapApply (bipDict g))
      (fun a => { type := FGNode.pytype g.ntype (mapApply (bipDict g) a),
                  origin := some a, extra := [] }) (bipDict_inj g hnd) a ha
  rw [hpass] at hlook
  refine ⟨hpass, fg, ?_, ?_, ?_⟩
  · unfold convert_to_fg
    rw [show convert_body g true = convert_bip g from rfl, hok]
    rfl
  · unfold FactorGraph.typeAttr
    rw [hlook]
    rfl
  · unfold FactorGraph.originAttr
    rw [hlook]
    rfl

/-- Witness for C10 at the graph with a node labelled `5`. -/
theorem claim_C10_witness :
    exOdd.nodes.Nodup ∧ exOdd.edgesClosed
    ∧ (∀ n ∈ exOdd.nodes, (exOdd.bipartite n).isSome)
    ∧ (∀ n ∈ exOdd.nodes.map (mapApply (bipDict exOdd)),
        ((FGNode.pytype exOdd.ntype) n).isSome)
    ∧ 1 ∈ exOdd.nodes ∧ exOdd.bipartite 1 = some 5
    ∧ (mapApply (bipDict exOdd) 1 = FGNode.orig 1
      ∧ ∃ fg, convert_to_fg exOdd true = .ok (exOdd, fg)
        ∧ fg.typeAttr (FGNode.orig 1) = some (exOdd.ntype 1)
        ∧ fg.originAttr (FGNode.orig 1) = some (some 1)) :=
  ⟨by decide, by decide, by decide, by decide, by decide, by decide,
    claim_C10 exOdd (by decide) (by decide) (by decide) (by decide) 1 (by decide) 5
      (by decide) (by decide) (by decide)⟩
